import Mathlib

/-!
Verification of the LiteVecDB sharded vector store (`litevecdb/core.py`).

The embedding models the store as a pure state: the on-disk shard files
become a list of shards indexed by shard id, the persisted shard index
becomes an association list, and every operation is a pure function from
state to state (fallible operations return `Except`).  The numeric values
(vector components, similarity scores, timestamps) are modelled as exact
rationals; the float32 arithmetic of the source is out of scope, but every
order-theoretic statement below is proved for an arbitrary score function
and then instantiated at the exact rational cosine, which agrees with the
source wherever the norms involved are rational.
-/

namespace LiteVecDB

/-- JSON-like scalar values used as metadata fields.  Metadata in the source
is an arbitrary Python value; the operations verified here (`_match_filter`,
`_is_expired`) only inspect dict fields holding scalars, so nested values are
orthogonal to every claim.  Python `None` is `Value.null`. -/
inductive Value where
  | null : Value
  | bool : Bool → Value
  | num : ℚ → Value
  | str : String → Value
deriving DecidableEq, Repr

/-- A metadata record: a Python dict modelled as an association list. -/
abbrev Metadata := List (String × Value)

/-- Python `meta.get(key)`: the stored value, or `None` (here `Value.null`)
when the key is missing.  The conflation of "missing" with "stored None" is
exactly the source's behaviour. -/
def dict_get (meta : Metadata) (key : String) : Value :=
  match meta.lookup key with
  | some v => v
  | none => .null

/-- `LiteVecDB._match_filter`: loop over the filter items, returning `False`
on the first key whose looked-up value differs from the expected one. -/
def match_filter (meta : Metadata) (filters : List (String × Value)) : Bool :=
  match filters with
  | [] => true
  | (key, expected) :: rest =>
      if dict_get meta key ≠ expected then false else match_filter meta rest

/-- `LiteVecDB._is_expired` with the call time `now` made explicit (the
source calls `time.time()`; time is modelled as constant during one
operation).  A numeric `expires_at` is compared with `now`; `None` or a
missing key means not expired; a Python `bool` compares as 0/1.  A
non-numeric `expires_at` raises `TypeError` in Python and is outside the
model (no claim concerns it). -/
def is_expired (now : ℚ) (meta : Metadata) : Bool :=
  match dict_get meta "expires_at" with
  | .null => false
  | .num q => decide (now ≥ q)
  | .bool b => decide (now ≥ (if b then (1 : ℚ) else 0))
  | .str _ => false

/-- One shard: the two parallel sequences persisted in one `.pkl.zst` file. -/
structure Shard where
  vectors : List (List ℚ)
  metadata : List Metadata
deriving DecidableEq, Repr

/-- The empty shard returned by `_load_shard` for an absent file. -/
def emptyShard : Shard := ⟨[], []⟩

/-- `LiteVecDB._load_shard`: the shard stored for this id, or the empty
shard when no file exists. -/
def load_shard (shards : List Shard) (shard_id : ℕ) : Shard :=
  shards.getD shard_id emptyShard

/-- `LiteVecDB._save_shard`: (over)write the file for this shard id; ids
never written before read back as empty shards. -/
def save_shard (shards : List Shard) (shard_id : ℕ) (sd : Shard) : List Shard :=
  match shards, shard_id with
  | [], 0 => [sd]
  | [], n + 1 => emptyShard :: save_shard [] n sd
  | _ :: rest, 0 => sd :: rest
  | s :: rest, n + 1 => s :: save_shard rest n sd

/-- Python dict assignment `counts[str(shard_id)] = n` on the persisted
counts map (string keys are in bijection with the numeric shard ids). -/
def set_count (counts : List (ℕ × ℕ)) (k n : ℕ) : List (ℕ × ℕ) :=
  match counts with
  | [] => [(k, n)]
  | (k', n') :: rest =>
      if k' = k then (k, n) :: rest else (k', n') :: set_count rest k n

/-- The persisted shard index `{'last_shard': ..., 'counts': {...}}`. -/
structure ShardIndex where
  last_shard : ℕ
  counts : List (ℕ × ℕ)
deriving DecidableEq, Repr

/-- The whole store: configuration, the shard files on disk, and the shard
index (kept in memory and mirrored to disk after each mutation). -/
structure State where
  dim : ℕ
  max_shard_size : ℕ
  shards : List Shard
  shard_index : ShardIndex
deriving DecidableEq, Repr

/-- A write to persistent storage, recorded so that error paths can be shown
to perform no write at all. -/
inductive WriteEvent where
  | shardFile : ℕ → Shard → WriteEvent
  | indexFile : ShardIndex → WriteEvent
deriving DecidableEq, Repr

/-- Error raised by `add` on a vector of the wrong length
(`ValueError("Vector dimension mismatch...")`, the spec's
`DimensionMismatchError`). -/
inductive AddError where
  | dimensionMismatch : AddError
deriving DecidableEq, Repr

/-- Error raised by `delete` (`IndexError("Index out of range")`, the spec's
`IndexOutOfRangeError`). -/
inductive DeleteError where
  | indexOutOfRange : DeleteError
deriving DecidableEq, Repr

/-- Error raised by `search` for a metric other than `"cosine"`
(`ValueError("Only 'cosine' metric is supported in this version.")`). -/
inductive SearchError where
  | unsupportedMetric : SearchError
deriving DecidableEq, Repr

/-- Decidable equality for `Except` results. -/
instance {ε α : Type} [DecidableEq ε] [DecidableEq α] : DecidableEq (Except ε α) :=
  fun a b =>
    match a, b with
    | .error e, .error e' =>
        if h : e = e' then .isTrue (by rw [h]) else .isFalse (by intro hc; cases hc; exact h rfl)
    | .ok x, .ok x' =>
        if h : x = x' then .isTrue (by rw [h]) else .isFalse (by intro hc; cases hc; exact h rfl)
    | .error _, .ok _ => .isFalse (by intro hc; cases hc)
    | .ok _, .error _ => .isFalse (by intro hc; cases hc)

/-- Result of `add`: the outcome plus the trace of file writes performed. -/
structure AddOutcome where
  result : Except AddError State
  writes : List WriteEvent
deriving DecidableEq, Repr

/-- Result of `delete`: the outcome plus the trace of file writes performed. -/
structure DeleteOutcome where
  result : Except DeleteError State
  writes : List WriteEvent
deriving DecidableEq, Repr

/-- Result of `purge_expired`: the new state, the count reported in the
`"Purged {n} expired items."` message, and the Python return value of the
method (which has no `return` statement, hence `none`). -/
structure PurgeOutcome where
  state : State
  printed : ℕ
  returned : Option ℕ
deriving DecidableEq, Repr

/-- The shard after appending one entry to both parallel sequences. -/
def appendEntry (sd : Shard) (vector : List ℚ) (meta : Metadata) : Shard :=
  ⟨sd.vectors ++ [vector], sd.metadata ++ [meta]⟩

/-- `LiteVecDB.add`.  `sizeFn` models `os.path.getsize` on the shard file
just written: the compressed size is a deterministic function of the shard
contents, left abstract; every theorem below holds for all `sizeFn`.  The
source order is kept: load, dimension check (raising before any write),
write the shard, read its size, roll over if the size reached the bound,
then update the count for the shard id that was written. -/
def add (sizeFn : Shard → ℕ) (st : State) (vector : List ℚ) (meta : Metadata) :
    AddOutcome :=
  let shard_id := st.shard_index.last_shard
  let shard_data := load_shard st.shards shard_id
  if vector.length ≠ st.dim then
    { result := .error .dimensionMismatch, writes := [] }
  else
    let shard' := appendEntry shard_data vector meta
    let shards' := save_shard st.shards shard_id shard'
    let file_size := sizeFn shard'
    let last' :=
      if st.max_shard_size ≤ file_size then shard_id + 1
      else st.shard_index.last_shard
    let index' : ShardIndex :=
      { last_shard := last',
        counts := set_count st.shard_index.counts shard_id shard'.vectors.length }
    { result := .ok { st with shards := shards', shard_index := index' },
      writes := [.shardFile shard_id shard', .indexFile index'] }

/-- `LiteVecDB.delete`.  The index is a Python integer, so it is modelled as
`ℤ` (the source explicitly rejects negatives before anything else could
interpret them). -/
def delete (st : State) (shard_id : ℕ) (index : ℤ) : DeleteOutcome :=
  let shard_data := load_shard st.shards shard_id
  if index < 0 ∨ (shard_data.vectors.length : ℤ) ≤ index then
    { result := .error .indexOutOfRange, writes := [] }
  else
    let i := index.toNat
    let shard' : Shard := ⟨shard_data.vectors.eraseIdx i, shard_data.metadata.eraseIdx i⟩
    let shards' := save_shard st.shards shard_id shard'
    let index' : ShardIndex :=
      { last_shard := st.shard_index.last_shard,
        counts := set_count st.shard_index.counts shard_id shard'.vectors.length }
    { result := .ok { st with shards := shards', shard_index := index' },
      writes := [.shardFile shard_id shard', .indexFile index'] }

/-- One step of the `purge_expired` loop over shard ids: skip empty shards,
partition the zipped entries by expiry, rewrite the shard only when its
length changed, and always refresh the count of a non-empty shard. -/
def purge_go (now : ℚ) :
    List ℕ → List Shard → List (ℕ × ℕ) → ℕ → List Shard × List (ℕ × ℕ) × ℕ
  | [], shards, counts, acc => (shards, counts, acc)
  | shard_id :: rest, shards, counts, acc =>
      let sd := load_shard shards shard_id
      if sd.vectors.isEmpty then purge_go now rest shards counts acc
      else
        let pairs := sd.vectors.zip sd.metadata
        let kept := pairs.filter fun p => !(is_expired now p.2)
        let expired_n := pairs.countP fun p => is_expired now p.2
        let new_vectors := kept.map Prod.fst
        let new_metadata := kept.map Prod.snd
        let shards' :=
          if new_vectors.length ≠ sd.vectors.length then
            save_shard shards shard_id ⟨new_vectors, new_metadata⟩
          else shards
        purge_go now rest shards' (set_count counts shard_id new_vectors.length)
          (acc + expired_n)

/-- `LiteVecDB.purge_expired` with the call time made explicit (the source
reads `time.time()`; one fixed `now` models a call during which the clock
does not cross any `expires_at`).  The purged count is printed, not
returned: the method body ends with `print(...)` and has no `return`. -/
def purge_expired (st : State) (now : ℚ) : PurgeOutcome :=
  let r := purge_go now (List.range (st.shard_index.last_shard + 1))
    st.shards st.shard_index.counts 0
  let index' : ShardIndex :=
    { last_shard := st.shard_index.last_shard, counts := r.2.1 }
  { state := { st with shards := r.1, shard_index := index' },
    printed := r.2.2,
    returned := none }

/-- One row of `LiteVecDB.get_all`. -/
structure Entry where
  shard : ℕ
  index : ℕ
  vector : List ℚ
  metadata : Metadata
deriving DecidableEq, Repr

/-- `LiteVecDB.get_all`: full enumeration, shard id order, index order. -/
def get_all (st : State) : List Entry :=
  (List.range (st.shard_index.last_shard + 1)).flatMap fun shard_id =>
    let sd := load_shard st.shards shard_id
    (List.range sd.vectors.length).map fun i =>
      ⟨shard_id, i, sd.vectors.getD i [], sd.metadata.getD i []⟩

/-! ### Stable sorting

Python's `list.sort` is a stable sort; `numpy.argsort` is modelled as a
stable sort of the index list (its determinization — numpy's default kind
leaves tie order unspecified, and is stable on the small arrays of every
concrete instance here).  Both are expressed through one stable insertion
sort parameterized by a rational key. -/

/-- Stable insertion of `x` into a list sorted ascending by `key`: `x` goes
in front of the first element whose key is not smaller, so an element
inserted later never overtakes an equal-key element inserted earlier. -/
def insertA {α : Type} (key : α → ℚ) (x : α) : List α → List α
  | [] => [x]
  | y :: ys => if key x ≤ key y then x :: y :: ys else y :: insertA key x ys

/-- Stable ascending insertion sort by a rational key. -/
def sortA {α : Type} (key : α → ℚ) : List α → List α
  | [] => []
  | x :: xs => insertA key x (sortA key xs)

/-- Stable descending sort by a rational key: Python's
`sort(key=..., reverse=True)`, which compares in reverse but keeps the
original order of ties. -/
def sortD {α : Type} (key : α → ℚ) (l : List α) : List α :=
  sortA (fun a => -key a) l

/-- `numpy.argsort` on a list of scores (stable determinization): the index
list `[0, ..., n-1]` stably sorted by the score at each index. -/
def argsortQ (s : List ℚ) : List ℕ :=
  sortA (fun i => s.getD i 0) (List.range s.length)

/-! ### Search -/

/-- Dot product of two rational vectors (`np.dot` on equal-length rows). -/
def dotQ (u v : List ℚ) : ℚ :=
  (List.zipWith (· * ·) u v).sum

/-- Exact rational square root: the unique nonnegative rational root when
one exists, and `0` otherwise.  This makes `cosine_similarity` the exact
value of the source's `dot(u/‖u‖, v/‖v‖)` whenever the norms involved are
rational (as in every concrete instance below); elsewhere the float32
computation has no exact counterpart and the order-theoretic theorems are
stated for an arbitrary score function instead. -/
def ratSqrt (q : ℚ) : ℚ :=
  let n := q.num.toNat.sqrt
  let d := q.den.sqrt
  if (n * n : ℤ) = q.num ∧ d * d = q.den then (n : ℚ) / (d : ℚ) else 0

/-- `LiteVecDB._cosine_similarity` for one candidate row `v` against the
query `q`: the dot product of the two normalized vectors. -/
def cosine_similarity (v q : List ℚ) : ℚ :=
  dotQ v q / (ratSqrt (dotQ v v) * ratSqrt (dotQ q q))

/-- The filter condition of the search comprehension:
`not filters or self._match_filter(meta, filters)` (an absent or empty
filter map is falsy and matches everything). -/
def passes (filters : Option (List (String × Value))) (meta : Metadata) : Bool :=
  match filters with
  | none => true
  | some fl => fl.isEmpty || match_filter meta fl

/-- The per-shard body of `LiteVecDB.search`, for an arbitrary score
function `sc` (instantiated at `cosine_similarity`): skip an empty shard,
filter the zipped entries, score the filtered vectors against the query,
take the reversed argsort truncated to `k`, and emit `(score, metadata)`
pairs in that order. -/
def per_shard (sc : List ℚ → List ℚ → ℚ) (query : List ℚ) (k : ℕ)
    (filters : Option (List (String × Value))) (sd : Shard) : List (ℚ × Metadata) :=
  if sd.vectors.isEmpty then []
  else
    let filtered := (sd.vectors.zip sd.metadata).filter fun p => passes filters p.2
    if filtered.isEmpty then []
    else
      let metas_filtered := filtered.map Prod.snd
      let sim := filtered.map fun p => sc p.1 query
      let top_k_idx := (argsortQ sim).reverse.take k
      top_k_idx.map fun i => (sim.getD i 0, metas_filtered.getD i [])

/-- `LiteVecDB.search` for an arbitrary score function: concatenate the
per-shard contributions for shard ids `0..last_shard`, stably sort the
buffer by score descending, truncate to `k`. -/
def search_with (sc : List ℚ → List ℚ → ℚ) (st : State) (query : List ℚ)
    (k : ℕ) (filters : Option (List (String × Value))) : List (ℚ × Metadata) :=
  let all_results :=
    ((List.range (st.shard_index.last_shard + 1)).map fun shard_id =>
      per_shard sc query k filters (load_shard st.shards shard_id)).flatten
  (sortD Prod.fst all_results).take k

/-- `LiteVecDB.search`: only the `"cosine"` metric is accepted; anything
else raises `ValueError` before any shard is read. -/
def search (st : State) (query : List ℚ) (k : ℕ) (metric : String)
    (filters : Option (List (String × Value))) :
    Except SearchError (List (ℚ × Metadata)) :=
  if metric ≠ "cosine" then .error .unsupportedMetric
  else .ok (search_with cosine_similarity st query k filters)

/-! ### Specification-side reference definitions

These follow the spec's words ("a single global brute-force top-k over all
entries"), to be compared with the two-stage implementation above. -/

/-- The scored filtered candidates of one shard, in shard-local index
order. -/
def shard_scored (sc : List ℚ → List ℚ → ℚ) (query : List ℚ)
    (filters : Option (List (String × Value))) (sd : Shard) : List (ℚ × Metadata) :=
  ((sd.vectors.zip sd.metadata).filter fun p => passes filters p.2).map
    fun p => (sc p.1 query, p.2)

/-- Modelled from the spec: the global brute-force enumeration of all
filtered candidates, shard id ascending, shard-local index ascending. -/
def global_candidates (sc : List ℚ → List ℚ → ℚ) (st : State) (query : List ℚ)
    (filters : Option (List (String × Value))) : List (ℚ × Metadata) :=
  ((List.range (st.shard_index.last_shard + 1)).map fun shard_id =>
    shard_scored sc query filters (load_shard st.shards shard_id)).flatten

/-- The global enumeration with each shard's candidate block reversed: the
tie order actually realized by the source's reversed per-shard argsort. -/
def global_candidates_rev (sc : List ℚ → List ℚ → ℚ) (st : State) (query : List ℚ)
    (filters : Option (List (String × Value))) : List (ℚ × Metadata) :=
  ((List.range (st.shard_index.last_shard + 1)).map fun shard_id =>
    (shard_scored sc query filters (load_shard st.shards shard_id)).reverse).flatten

/-- Lists sorted ascending by `key`. -/
def sortedA {α : Type} (key : α → ℚ) (l : List α) : Prop :=
  l.Pairwise fun a b => key a ≤ key b

/-- Lists sorted descending by `key`. -/
def sortedD {α : Type} (key : α → ℚ) (l : List α) : Prop :=
  l.Pairwise fun a b => key b ≤ key a

/-- Position tags making every element of a block list unique. -/
def tagBlocks {α : Type} : ℕ → List (List α) → List (List (ℕ × α))
  | _, [] => []
  | n, L :: Ls => List.enumFrom n L :: tagBlocks (n + L.length) Ls

/-- A shard after dropping its expired entries: the kept pairs of the
zipped parallel lists, in their original order. -/
def purge_shard_spec (now : ℚ) (sd : Shard) : Shard :=
  ⟨((sd.vectors.zip sd.metadata).filter fun p => !(is_expired now p.2)).map Prod.fst,
   ((sd.vectors.zip sd.metadata).filter fun p => !(is_expired now p.2)).map Prod.snd⟩

/-- The standing invariant of the data model: the two parallel sequences of
every shard have equal length. -/
def shards_parallel (st : State) : Prop :=
  ∀ shard_id, (load_shard st.shards shard_id).vectors.length
    = (load_shard st.shards shard_id).metadata.length

/-- Total number of live entries over the shard range of the store. -/
def total_entries (st : State) : ℕ :=
  ((List.range (st.shard_index.last_shard + 1)).map fun shard_id =>
    (load_shard st.shards shard_id).vectors.length).sum

/-- Total number of expired entries over the shard range of the store. -/
def total_expired (st : State) (now : ℚ) : ℕ :=
  ((List.range (st.shard_index.last_shard + 1)).map fun shard_id =>
    ((load_shard st.shards shard_id).vectors.zip
      (load_shard st.shards shard_id).metadata).countP
      fun p => is_expired now p.2).sum

/-! ### Concrete stores used in witnesses and counterexamples -/

def metaA : Metadata := [("t", Value.str "a")]

def metaB : Metadata := [("t", Value.str "b")]

def metaX : Metadata := [("t", Value.str "x")]

/-- A store holding two identical vectors in one shard: a cosine tie
between shard-local indices 0 and 1. -/
def tie_store : State :=
  { dim := 2, max_shard_size := 1000,
    shards := [⟨[[1, 0], [1, 0]], [metaA, metaB]⟩],
    shard_index := { last_shard := 0, counts := [(0, 2)] } }

/-- A store holding two vectors with distinct cosine scores against the
query `[1, 0]`; the best entry sits at shard-local index 1. -/
def distinct_store : State :=
  { dim := 2, max_shard_size := 1000,
    shards := [⟨[[0, 1], [1, 0]], [metaB, metaA]⟩],
    shard_index := { last_shard := 0, counts := [(0, 2)] } }

/-- A store whose single entry has no `"loc"` key in its metadata. -/
def noloc_store : State :=
  { dim := 2, max_shard_size := 1000,
    shards := [⟨[[1, 0]], [metaX]⟩],
    shard_index := { last_shard := 0, counts := [(0, 1)] } }

/-- The entry of `distinct_store`'s index 1, stored alone at index 0. -/
def pos_store : State :=
  { dim := 2, max_shard_size := 1000,
    shards := [⟨[[1, 0]], [metaA]⟩],
    shard_index := { last_shard := 0, counts := [(0, 1)] } }

/-- A store with one entry expired at time 10 and one live entry. -/
def purge_store : State :=
  { dim := 2, max_shard_size := 1000,
    shards := [⟨[[1, 0], [0, 1]], [[("expires_at", Value.num 5)], metaA]⟩],
    shard_index := { last_shard := 0, counts := [(0, 2)] } }

/-- A concrete stand-in for the compressed file size. -/
def demo_size (sd : Shard) : ℕ := 10 * sd.vectors.length

/-- A size function large enough to trigger rollover on the demo stores. -/
def big_size (sd : Shard) : ℕ := 1000 * sd.vectors.length

/-! ### Lemmas about the stable sort -/

section SortLemmas

variable {α : Type} (key : α → ℚ)

theorem insertA_perm (x : α) (s : List α) :
    List.Perm (insertA key x s) (x :: s) := by
  induction s with
  | nil => simp [insertA]
  | cons y ys ih =>
      by_cases h : key x ≤ key y
      · simp [insertA, h]
      · simp only [insertA, if_neg h]
        exact (List.Perm.cons y ih).trans (List.Perm.swap x y ys)

theorem sortA_perm (l : List α) : List.Perm (sortA key l) l := by
  induction l with
  | nil => simp [sortA]
  | cons x xs ih =>
      exact (insertA_perm key x (sortA key xs)).trans (List.Perm.cons x ih)

theorem mem_insertA {x y : α} {s : List α} :
    y ∈ insertA key x s ↔ y = x ∨ y ∈ s := by
  rw [(insertA_perm key x s).mem_iff]
  simp

theorem insertA_sorted {x : α} {s : List α} (hs : sortedA key s) :
    sortedA key (insertA key x s) := by
  induction s with
  | nil => simp [insertA, sortedA]
  | cons y ys ih =>
      rcases List.pairwise_cons.mp hs with ⟨hy, hys⟩
      by_cases h : key x ≤ key y
      · simp only [insertA, if_pos h]
        refine List.pairwise_cons.mpr ⟨?_, hs⟩
        intro b hb
        rcases List.mem_cons.mp hb with rfl | hb
        · exact h
        · exact le_trans h (hy b hb)
      · simp only [insertA, if_neg h]
        refine List.pairwise_cons.mpr ⟨?_, ih hys⟩
        intro b hb
        rcases (mem_insertA key).mp hb with rfl | hb
        · exact le_of_lt (lt_of_not_le h)
        · exact hy b hb

theorem sortA_sorted (l : List α) : sortedA key (sortA key l) := by
  induction l with
  | nil => simp [sortA, sortedA]
  | cons x xs ih => exact insertA_sorted key ih

theorem filter_insertA_pos {x : α} {c : ℚ} (hx : key x = c) (s : List α) :
    (insertA key x s).filter (fun a => decide (key a = c))
      = x :: s.filter (fun a => decide (key a = c)) := by
  induction s with
  | nil => simp [insertA, hx]
  | cons y ys ih =>
      by_cases h : key x ≤ key y
      · simp only [insertA, if_pos h, List.filter_cons]
        simp [hx]
      · have hy : ¬ key y = c := by
          intro hc
          exact h (le_of_eq (hx.trans hc.symm))
        simp only [insertA, if_neg h, List.filter_cons, decide_eq_true_eq, if_neg hy]
        exact ih

theorem filter_insertA_neg {x : α} {c : ℚ} (hx : ¬ key x = c) (s : List α) :
    (insertA key x s).filter (fun a => decide (key a = c))
      = s.filter (fun a => decide (key a = c)) := by
  induction s with
  | nil => simp [insertA, hx]
  | cons y ys ih =>
      by_cases h : key x ≤ key y
      · simp only [insertA, if_pos h, List.filter_cons]
        simp [hx]
      · simp only [insertA, if_neg h, List.filter_cons]
        simp [ih]

/-- Stability of the sort: each key class keeps its original order. -/
theorem filter_sortA (l : List α) (c : ℚ) :
    (sortA key l).filter (fun a => decide (key a = c))
      = l.filter (fun a => decide (key a = c)) := by
  induction l with
  | nil => simp [sortA]
  | cons x xs ih =>
      by_cases hx : key x = c
      · rw [sortA, filter_insertA_pos key hx, ih]
        simp [List.filter_cons, hx]
      · rw [sortA, filter_insertA_neg key hx, ih]
        simp [List.filter_cons, hx]

/-- A list sorted ascending by key is determined by its key classes. -/
theorem sortedA_ext : ∀ {l1 l2 : List α}, sortedA key l1 → sortedA key l2 →
    (∀ c : ℚ, l1.filter (fun a => decide (key a = c))
      = l2.filter (fun a => decide (key a = c))) → l1 = l2 := by
  intro l1
  induction l1 with
  | nil =>
      intro l2 _ _ hf
      cases l2 with
      | nil => rfl
      | cons b t2 =>
          have h := hf (key b)
          rw [List.filter_nil, List.filter_cons] at h
          simp at h
  | cons a t1 ih =>
      intro l2 h1 h2 hf
      cases l2 with
      | nil =>
          have h := hf (key a)
          rw [List.filter_nil, List.filter_cons] at h
          simp at h
      | cons b t2 =>
          rcases List.pairwise_cons.mp h1 with ⟨ha, ht1⟩
          rcases List.pairwise_cons.mp h2 with ⟨hb, ht2⟩
          have hab : key a = key b := by
            by_contra hne
            have hbt1 : b ∈ t1 := by
              have hmem : b ∈ (a :: t1).filter (fun x => decide (key x = key b)) := by
                rw [hf (key b)]
                exact List.mem_filter.mpr ⟨List.mem_cons_self b t2, by simp⟩
              rcases List.mem_cons.mp (List.mem_of_mem_filter hmem) with rfl | hm
              · exact absurd rfl hne
              · exact hm
            have hat2 : a ∈ t2 := by
              have hmem : a ∈ (b :: t2).filter (fun x => decide (key x = key a)) := by
                rw [← hf (key a)]
                exact List.mem_filter.mpr ⟨List.mem_cons_self a t1, by simp⟩
              rcases List.mem_cons.mp (List.mem_of_mem_filter hmem) with heq | hm
              · exact absurd heq.symm (fun h => hne (congrArg key h).symm)
              · exact hm
            exact hne (le_antisymm (ha b hbt1) (hb a hat2))
          have hfa := hf (key a)
          rw [List.filter_cons, List.filter_cons] at hfa
          simp only [decide_eq_true_eq, if_pos rfl, if_pos hab.symm] at hfa
          have hab' : a = b := by
            injection hfa with h _
          subst hab'
          have htailf : ∀ c : ℚ, t1.filter (fun x => decide (key x = c))
              = t2.filter (fun x => decide (key x = c)) := by
            intro c
            have h := hf c
            rw [List.filter_cons, List.filter_cons] at h
            by_cases hc : key a = c
            · simp only [decide_eq_true_eq, if_pos hc] at h
              injection h
            · simp only [decide_eq_true_eq, if_neg hc] at h
              exact h
          rw [ih ht1 ht2 htailf]

theorem insertA_front {x : α} {s : List α} (h : ∀ y ∈ s, key x ≤ key y) :
    insertA key x s = x :: s := by
  cases s with
  | nil => rfl
  | cons y ys => simp [insertA, h y (List.mem_cons_self y ys)]

theorem sublist_insertA (x : α) (s : List α) : s.Sublist (insertA key x s) := by
  induction s with
  | nil => simp [insertA]
  | cons y ys ih =>
      by_cases h : key x ≤ key y
      · simp only [insertA, if_pos h]
        exact List.sublist_cons_self x (y :: ys)
      · simp only [insertA, if_neg h]
        exact List.Sublist.cons₂ y ih

theorem insertA_sublist_insertA {x : α} {s t : List α} (hst : s.Sublist t) :
    sortedA key t → (insertA key x s).Sublist (insertA key x t) := by
  induction hst with
  | slnil => intro _; exact List.Sublist.refl _
  | @cons s t' b hsub ih =>
      intro ht
      rcases List.pairwise_cons.mp ht with ⟨hb, ht'⟩
      by_cases h : key x ≤ key b
      · rw [show insertA key x (b :: t') = x :: b :: t' from by simp [insertA, h]]
        have hfront : insertA key x s = x :: s := by
          apply insertA_front
          intro y hy
          exact le_trans h (hb y (hsub.subset hy))
        rw [hfront]
        exact List.Sublist.cons₂ x (List.Sublist.cons b hsub)
      · rw [show insertA key x (b :: t') = b :: insertA key x t' from by
          simp [insertA, h]]
        exact List.Sublist.cons b (ih ht')
  | @cons₂ s t' b hsub ih =>
      intro ht
      rcases List.pairwise_cons.mp ht with ⟨hb, ht'⟩
      by_cases h : key x ≤ key b
      · rw [show insertA key x (b :: t') = x :: b :: t' from by simp [insertA, h],
          show insertA key x (b :: s) = x :: b :: s from by simp [insertA, h]]
        exact List.Sublist.cons₂ x (List.Sublist.cons₂ b hsub)
      · rw [show insertA key x (b :: t') = b :: insertA key x t' from by
            simp [insertA, h],
          show insertA key x (b :: s) = b :: insertA key x s from by
            simp [insertA, h]]
        exact List.Sublist.cons₂ b (ih ht')

theorem sortA_sublist {l2 l1 : List α} (h : l2.Sublist l1) :
    (sortA key l2).Sublist (sortA key l1) := by
  induction h with
  | slnil => exact List.Sublist.refl _
  | @cons l2' l1' a hsub ih => exact ih.trans (sublist_insertA key a (sortA key l1'))
  | @cons₂ l2' l1' a hsub ih =>
      exact insertA_sublist_insertA key ih (sortA_sorted key l1')

theorem map_insertA {β : Type} (keyB : β → ℚ) (g : α → β) {x : α} :
    ∀ {s : List α}, keyB (g x) = key x → (∀ a ∈ s, keyB (g a) = key a) →
    (insertA key x s).map g = insertA keyB (g x) (s.map g) := by
  intro s hx hs
  induction s with
  | nil => simp [insertA]
  | cons y ys ih =>
      have hy := hs y (List.mem_cons_self y ys)
      by_cases h : key x ≤ key y
      · rw [show insertA key x (y :: ys) = x :: y :: ys from by simp [insertA, h]]
        simp only [List.map_cons]
        exact (show insertA keyB (g x) (g y :: ys.map g) = g x :: g y :: ys.map g from by
          simp [insertA, hx, hy, h]).symm
      · rw [show insertA key x (y :: ys) = y :: insertA key x ys from by
            simp [insertA, h],
          List.map_cons, List.map_cons,
          show insertA keyB (g x) (g y :: ys.map g)
              = g y :: insertA keyB (g x) (ys.map g) from by simp [insertA, hx, hy, h],
          ih (fun a ha => hs a (List.mem_cons_of_mem y ha))]

theorem map_sortA {β : Type} (keyB : β → ℚ) (g : α → β) :
    ∀ (l : List α), (∀ a ∈ l, keyB (g a) = key a) →
    (sortA key l).map g = sortA keyB (l.map g) := by
  intro l
  induction l with
  | nil => intro _; rfl
  | cons x xs ih =>
      intro h
      rw [sortA, List.map_cons, sortA,
        ← ih (fun a ha => h a (List.mem_cons_of_mem x ha))]
      exact map_insertA key keyB g (h x (List.mem_cons_self x xs))
        (fun a ha => h a (List.mem_cons_of_mem x ((sortA_perm key xs).mem_iff.mp ha)))

/-- Sorting is invariant under pre-sorting any contiguous block. -/
theorem sortA_inner_sortA (P B R : List α) :
    sortA key (P ++ sortA key B ++ R) = sortA key (P ++ B ++ R) := by
  apply sortedA_ext key (sortA_sorted key _) (sortA_sorted key _)
  intro c
  rw [filter_sortA, filter_sortA]
  simp only [List.filter_append]
  rw [filter_sortA]

end SortLemmas

section SortDLemmas

variable {α : Type} (key : α → ℚ)

theorem sortD_sorted (l : List α) : sortedD key (sortD key l) :=
  (sortA_sorted (fun a => -key a) l).imp fun h => neg_le_neg_iff.mp h

theorem sortD_perm (l : List α) : List.Perm (sortD key l) l :=
  sortA_perm (fun a => -key a) l

theorem sortD_sublist {l2 l1 : List α} (h : l2.Sublist l1) :
    (sortD key l2).Sublist (sortD key l1) :=
  sortA_sublist (fun a => -key a) h

/-- Key classes of the negated key agree with those of the key. -/
theorem filter_negclass (l : List α) (c : ℚ) :
    l.filter (fun a => decide (-key a = -c)) = l.filter (fun a => decide (key a = c)) := by
  apply List.filter_congr
  intro a _
  simp

theorem filter_sortD (l : List α) (c : ℚ) :
    (sortD key l).filter (fun a => decide (key a = c))
      = l.filter (fun a => decide (key a = c)) := by
  have h := filter_sortA (fun a => -key a) l (-c)
  rw [filter_negclass, filter_negclass] at h
  exact h

theorem sortedD_ext {l1 l2 : List α} (h1 : sortedD key l1) (h2 : sortedD key l2)
    (hf : ∀ c : ℚ, l1.filter (fun a => decide (key a = c))
      = l2.filter (fun a => decide (key a = c))) : l1 = l2 := by
  apply sortedA_ext (fun a => -key a)
  · exact h1.imp fun h => neg_le_neg_iff.mpr h
  · exact h2.imp fun h => neg_le_neg_iff.mpr h
  · intro c
    have hc : ∀ (m : List α), m.filter (fun a => decide (-key a = c))
        = m.filter (fun a => decide (key a = -c)) := by
      intro m
      apply List.filter_congr
      intro a _
      simp [neg_eq_iff_eq_neg]
    rw [hc, hc]
    exact hf (-c)

/-- The reverse of the stable ascending sort is the stable descending sort
of the reversed list (ties land in reversed original order either way). -/
theorem reverse_sortA (l : List α) :
    (sortA key l).reverse = sortD key l.reverse := by
  apply sortedD_ext key
  · exact List.pairwise_reverse.mpr (sortA_sorted key l)
  · exact sortD_sorted key l.reverse
  · intro c
    rw [List.filter_reverse, filter_sortA, filter_sortD, List.filter_reverse]

/-- Sorting descending is invariant under pre-sorting a contiguous block. -/
theorem sortD_inner_sortD (P B R : List α) :
    sortD key (P ++ sortD key B ++ R) = sortD key (P ++ B ++ R) :=
  sortA_inner_sortA (fun a => -key a) P B R

/-- Two lists that are permutations of each other, the first of length at
most one, are equal. -/
theorem perm_eq_of_length_le_one {β : Type} {m1 m2 : List β}
    (hp : List.Perm m1 m2) (hlen : m1.length ≤ 1) : m1 = m2 := by
  cases m1 with
  | nil => exact (hp.symm.eq_nil).symm
  | cons a rest =>
      cases rest with
      | nil =>
          cases m2 with
          | nil => exact absurd hp.length_eq (by simp)
          | cons b r2 =>
              cases r2 with
              | nil =>
                  have hab : a = b := by
                    have := hp.mem_iff.mp (List.mem_cons_self a [])
                    simpa using this
                  rw [hab]
              | cons c r3 => exact absurd hp.length_eq (by simp)
      | cons b r2 => simp at hlen

/-- When all keys in a list are distinct, each key class has at most one
element. -/
theorem filter_class_len_le_one {l : List α} (hnd : (l.map key).Nodup) (c : ℚ) :
    (l.filter (fun a => decide (key a = c))).length ≤ 1 := by
  induction l with
  | nil => simp
  | cons x xs ih =>
      rw [List.map_cons, List.nodup_cons] at hnd
      rcases hnd with ⟨hx, hxs⟩
      rw [List.filter_cons]
      by_cases hc : key x = c
      · have hempty : xs.filter (fun a => decide (key a = c)) = [] := by
          rw [List.filter_eq_nil_iff]
          intro a ha hka
          rw [decide_eq_true_eq] at hka
          exact hx (hc ▸ hka ▸ List.mem_map_of_mem key ha)
        simp [hc, hempty]
      · simp only [decide_eq_true_eq, if_neg hc]
        exact ih hxs

/-- A stable descending sort of lists that are permutations with pairwise
distinct keys is independent of the input order. -/
theorem sortD_eq_of_perm_of_nodup_keys {l1 l2 : List α}
    (hperm : List.Perm l1 l2) (hnd : (l1.map key).Nodup) :
    sortD key l1 = sortD key l2 := by
  apply sortedD_ext key (sortD_sorted key l1) (sortD_sorted key l2)
  intro c
  rw [filter_sortD, filter_sortD]
  exact perm_eq_of_length_le_one (hperm.filter _) (filter_class_len_le_one key hnd c)

end SortDLemmas

section OrderLemmas

variable {α : Type}

/-- In a duplicate-free list two distinct elements cannot occur in both
orders. -/
theorem eq_of_pair_sublist_both {x y : α} :
    ∀ {t : List α}, t.Nodup → List.Sublist [x, y] t → List.Sublist [y, x] t →
      x = y := by
  intro t
  induction t with
  | nil =>
      intro _ h1 _
      rw [List.sublist_nil] at h1
      cases h1
  | cons a t' ih =>
      intro hnd h1 h2
      rcases List.nodup_cons.mp hnd with ⟨ha, hnd'⟩
      cases h1 with
      | cons _ h1' =>
          cases h2 with
          | cons _ h2' => exact ih hnd' h1' h2'
          | cons₂ _ h2' =>
              exact absurd
                (h1'.subset (List.mem_cons_of_mem x (List.mem_cons_self y []))) ha
      | cons₂ _ h1' =>
          cases h2 with
          | cons _ h2' =>
              exact absurd
                (h2'.subset (List.mem_cons_of_mem y (List.mem_cons_self x []))) ha
          | cons₂ _ h2' => rfl

/-- A sublist of a duplicate-free list is determined by its member set. -/
theorem sublist_eq_of_mem_iff :
    ∀ {s t1 t2 : List α}, s.Nodup → t1.Sublist s → t2.Sublist s →
      (∀ x, x ∈ t1 ↔ x ∈ t2) → t1 = t2 := by
  intro s
  induction s with
  | nil =>
      intro t1 t2 _ h1 h2 _
      rw [List.sublist_nil.mp h1, List.sublist_nil.mp h2]
  | cons a s' ih =>
      intro t1 t2 hnd h1 h2 hm
      rcases List.nodup_cons.mp hnd with ⟨ha, hnd'⟩
      cases h1 with
      | cons _ h1' =>
          cases h2 with
          | cons _ h2' => exact ih hnd' h1' h2' hm
          | cons₂ _ h2' =>
              exact absurd (h1'.subset ((hm a).mpr (List.mem_cons_self a _))) ha
      | cons₂ _ h1' =>
          cases h2 with
          | cons _ h2' =>
              exact absurd (h2'.subset ((hm a).mp (List.mem_cons_self a _))) ha
          | cons₂ _ h2' =>
              congr 1
              apply ih hnd' h1' h2'
              intro x
              constructor
              · intro hx
                rcases List.mem_cons.mp ((hm x).mp (List.mem_cons_of_mem a hx))
                  with rfl | h
                · exact absurd (h1'.subset hx) ha
                · exact h
              · intro hx
                rcases List.mem_cons.mp ((hm x).mpr (List.mem_cons_of_mem a hx))
                  with rfl | h
                · exact absurd (h2'.subset hx) ha
                · exact h

end OrderLemmas

section Truncation

variable {α : Type} [DecidableEq α] (key : α → ℚ)

/-- Core of the two-stage top-k correctness: for a duplicate-free input,
deleting the part of a descending-sorted block beyond position `k` does not
change the first `k` elements of the stable descending sort of the whole
list. -/
theorem sortD_take_truncate_block (k : ℕ) (P B R : List α)
    (hB : sortedD key B) (hnd : (P ++ B ++ R).Nodup) :
    (sortD key (P ++ B.take k ++ R)).take k
      = (sortD key (P ++ B ++ R)).take k := by
  by_cases hk : B.length ≤ k
  · rw [List.take_of_length_le hk]
  push_neg at hk
  have hsub : List.Sublist (P ++ B.take k ++ R) (P ++ B ++ R) :=
    List.Sublist.append
      (List.Sublist.append (List.Sublist.refl P) (List.take_sublist k B))
      (List.Sublist.refl R)
  have hBl1 : List.Sublist B (P ++ B ++ R) :=
    (List.sublist_append_right P B).trans (List.sublist_append_left (P ++ B) R)
  have hnds : (sortD key (P ++ B ++ R)).Nodup :=
    ((sortD_perm key (P ++ B ++ R)).nodup_iff).mpr hnd
  have hs2 : List.Sublist (sortD key (P ++ B.take k ++ R)) (sortD key (P ++ B ++ R)) :=
    sortD_sublist key hsub
  have hmem_take : ∀ x ∈ (sortD key (P ++ B ++ R)).take k, x ∈ P ++ B.take k ++ R := by
    intro x hxtake
    by_contra hxl2
    have hxs : x ∈ sortD key (P ++ B ++ R) := List.mem_of_mem_take hxtake
    have hxl1 : x ∈ P ++ B ++ R := (sortD_perm key (P ++ B ++ R)).subset hxs
    have hxD : x ∈ B.drop k := by
      rcases List.mem_append.mp hxl1 with hPB | hR
      · rcases List.mem_append.mp hPB with hP | hB'
        · exact absurd (List.mem_append_left R (List.mem_append_left _ hP)) hxl2
        · have hB2 : x ∈ B.take k ++ B.drop k := by rw [List.take_append_drop]; exact hB'
          rcases List.mem_append.mp hB2 with hT | hD
          · exact absurd (List.mem_append_left R (List.mem_append_right P hT)) hxl2
          · exact hD
      · exact absurd (List.mem_append_right (P ++ B.take k) hR) hxl2
    obtain ⟨u, w, hs⟩ := List.append_of_mem hxs
    have hndsu : (u ++ x :: w).Nodup := hs ▸ hnds
    rcases List.nodup_append.mp hndsu with ⟨hndu, hndxw, hdisj⟩
    have hxu : x ∉ u := fun h => hdisj h (List.mem_cons_self x w)
    have hxw : x ∉ w := (List.nodup_cons.mp hndxw).1
    have hKu : ∀ κ ∈ B.take k, κ ∈ u := by
      intro κ hκ
      have hκl2 : κ ∈ P ++ B.take k ++ R :=
        List.mem_append_left R (List.mem_append_right P hκ)
      have hκx : κ ≠ x := fun h => hxl2 (h ▸ hκl2)
      have hκl1 : κ ∈ P ++ B ++ R := hsub.subset hκl2
      have hκs : κ ∈ sortD key (P ++ B ++ R) :=
        (sortD_perm key (P ++ B ++ R)).mem_iff.mpr hκl1
      have hκuw : κ ∈ u ∨ κ ∈ w := by
        have hκ' : κ ∈ u ++ x :: w := hs ▸ hκs
        rcases List.mem_append.mp hκ' with h | h
        · exact Or.inl h
        · rcases List.mem_cons.mp h with h' | h'
          · exact absurd h' hκx
          · exact Or.inr h'
      rcases hκuw with h | hw
      · exact h
      exfalso
      have hxκ_sub : List.Sublist [x, κ] (sortD key (P ++ B ++ R)) := by
        rw [hs]
        exact ((List.Sublist.cons₂ x (List.singleton_sublist.mpr hw)).trans
          (List.sublist_append_right u (x :: w)))
      have hkey1 : key x ≤ key κ := by
        have hp : List.Pairwise (fun a b => key b ≤ key a) (B.take k ++ B.drop k) := by
          rw [List.take_append_drop]; exact hB
        exact (List.pairwise_append.mp hp).2.2 κ hκ x hxD
      have hkey2 : key κ ≤ key x := by
        have hpw := (sortD_sorted key (P ++ B ++ R)).sublist hxκ_sub
        rcases List.pairwise_cons.mp hpw with ⟨h', _⟩
        exact h' κ (List.mem_cons_self κ [])
      have hc : key κ = key x := le_antisymm hkey2 hkey1
      have hκx_l1 : List.Sublist [κ, x] (P ++ B ++ R) := by
        have h1 : List.Sublist ([κ] ++ [x]) (B.take k ++ B.drop k) :=
          List.Sublist.append (List.singleton_sublist.mpr hκ)
            (List.singleton_sublist.mpr hxD)
        rw [List.take_append_drop] at h1
        exact h1.trans hBl1
      have hfilt : List.Sublist [κ, x]
          ((P ++ B ++ R).filter (fun a => decide (key a = key x))) := by
        have heq : ([κ, x].filter (fun a => decide (key a = key x))) = [κ, x] := by
          simp [List.filter_cons, hc]
        rw [← heq]
        exact List.Sublist.filter _ hκx_l1
      have hκx_s : List.Sublist [κ, x] (sortD key (P ++ B ++ R)) := by
        rw [← filter_sortD key (P ++ B ++ R) (key x)] at hfilt
        exact hfilt.trans (List.filter_sublist _)
      exact hκx (eq_of_pair_sublist_both hnds hκx_s hxκ_sub)
    have hKnd : (B.take k).Nodup :=
      List.Nodup.sublist (List.take_sublist k B) (List.Nodup.sublist hBl1 hnd)
    have hKlen : (B.take k).length = k := by
      rw [List.length_take]
      omega
    have hku : k ≤ u.length := by
      have hsubF : (B.take k).toFinset ⊆ u.toFinset := by
        intro z hz
        exact List.mem_toFinset.mpr (hKu z (List.mem_toFinset.mp hz))
      have hcard := Finset.card_le_card hsubF
      rw [List.toFinset_card_of_nodup hKnd, hKlen] at hcard
      exact hcard.trans (List.toFinset_card_le u)
    rw [hs, List.take_append_of_le_length hku] at hxtake
    exact hxu (List.mem_of_mem_take hxtake)
  have hfilter_eq : sortD key (P ++ B.take k ++ R)
      = (sortD key (P ++ B ++ R)).filter
          (fun a => decide (a ∈ P ++ B.take k ++ R)) := by
    apply sublist_eq_of_mem_iff hnds hs2 (List.filter_sublist _)
    intro z
    rw [List.mem_filter]
    constructor
    · intro hz
      have hzl2 : z ∈ P ++ B.take k ++ R := (sortD_perm key _).subset hz
      refine ⟨(sortD_perm key (P ++ B ++ R)).mem_iff.mpr (hsub.subset hzl2), ?_⟩
      simpa using hzl2
    · rintro ⟨_, hz2⟩
      rw [decide_eq_true_eq] at hz2
      exact (sortD_perm key _).mem_iff.mpr hz2
  have hlen1 : k ≤ (sortD key (P ++ B ++ R)).length := by
    rw [(sortD_perm key _).length_eq]
    rw [List.length_append, List.length_append]
    omega
  have hsplit : sortD key (P ++ B.take k ++ R)
      = (sortD key (P ++ B ++ R)).take k
        ++ ((sortD key (P ++ B ++ R)).drop k).filter
            (fun a => decide (a ∈ P ++ B.take k ++ R)) := by
    rw [hfilter_eq]
    conv_lhs => rw [← List.take_append_drop k (sortD key (P ++ B ++ R))]
    rw [List.filter_append]
    congr 1
    rw [List.filter_eq_self]
    intro a ha
    simpa using hmem_take a ha
  rw [hsplit]
  have htklen : ((sortD key (P ++ B ++ R)).take k).length = k := by
    rw [List.length_take]
    omega
  rw [List.take_append_of_le_length (le_of_eq htklen.symm),
    List.take_of_length_le (le_of_eq htklen)]

end Truncation

section TwoStage

variable {α : Type}

theorem subperm_nodup {l1 l2 : List α} (h : List.Subperm l1 l2)
    (hnd : l2.Nodup) : l1.Nodup := by
  obtain ⟨l, hp, hs⟩ := h
  exact (hp.nodup_iff).mp (List.Nodup.sublist hs hnd)

theorem subperm_append_both {β : Type} {l1 l2 r1 r2 : List β}
    (h1 : List.Subperm l1 l2) (h2 : List.Subperm r1 r2) :
    List.Subperm (l1 ++ r1) (l2 ++ r2) := by
  obtain ⟨a, hpa, hsa⟩ := h1
  obtain ⟨b, hpb, hsb⟩ := h2
  exact ⟨a ++ b, hpa.append hpb, hsa.append hsb⟩

theorem trunc_subperm (key : α → ℚ) (k : ℕ) (L : List α) :
    List.Subperm ((sortD key L).take k) L :=
  ((List.take_sublist k (sortD key L)).subperm).trans ((sortD_perm key L).subperm)

theorem flatten_trunc_subperm (key : α → ℚ) (k : ℕ) :
    ∀ (Ls : List (List α)),
      List.Subperm ((Ls.map fun L => (sortD key L).take k).flatten) Ls.flatten := by
  intro Ls
  induction Ls with
  | nil => simp [List.Subperm.refl]
  | cons L Ls ih =>
      rw [List.map_cons, List.flatten_cons, List.flatten_cons]
      exact subperm_append_both (trunc_subperm key k L) ih

/-- Iterated block truncation below an already-processed prefix `P`. -/
theorem sortD_take_flatten_aux [DecidableEq α] (key : α → ℚ) (k : ℕ) :
    ∀ (Ls : List (List α)) (P : List α), (P ++ Ls.flatten).Nodup →
      (sortD key (P ++ (Ls.map fun L => (sortD key L).take k).flatten)).take k
        = (sortD key (P ++ Ls.flatten)).take k := by
  intro Ls
  induction Ls with
  | nil => intro P _; rfl
  | cons L Ls ih =>
      intro P hnd
      rw [List.map_cons, List.flatten_cons, List.flatten_cons]
      have hnd1 : ((P ++ sortD key L)
          ++ (Ls.map fun L => (sortD key L).take k).flatten).Nodup := by
        apply subperm_nodup _ hnd
        rw [List.append_assoc]
        exact subperm_append_both (List.Subperm.refl P)
          (subperm_append_both ((sortD_perm key L).subperm)
            (flatten_trunc_subperm key k Ls))
      have hstep1 :
          (sortD key (P ++ ((sortD key L).take k
            ++ (Ls.map fun L => (sortD key L).take k).flatten))).take k
          = (sortD key (P ++ (sortD key L
            ++ (Ls.map fun L => (sortD key L).take k).flatten))).take k := by
        rw [← List.append_assoc, ← List.append_assoc]
        exact sortD_take_truncate_block key k P (sortD key L) _
          (sortD_sorted key L) hnd1
      have hstep2 : sortD key (P ++ (sortD key L
            ++ (Ls.map fun L => (sortD key L).take k).flatten))
          = sortD key (P ++ (L
            ++ (Ls.map fun L => (sortD key L).take k).flatten)) := by
        rw [← List.append_assoc, ← List.append_assoc]
        exact sortD_inner_sortD key P L _
      have hstep3 :
          (sortD key ((P ++ L) ++ (Ls.map fun L => (sortD key L).take k).flatten)).take k
          = (sortD key ((P ++ L) ++ Ls.flatten)).take k := by
        apply ih (P ++ L)
        rw [List.append_assoc]
        exact hnd
      rw [hstep1, hstep2, ← List.append_assoc, hstep3, List.append_assoc]

theorem tagBlocks_map_snd :
    ∀ (Ls : List (List α)) (n : ℕ),
      (tagBlocks n Ls).map (List.map Prod.snd) = Ls := by
  intro Ls
  induction Ls with
  | nil => intro n; rfl
  | cons L Ls ih =>
      intro n
      rw [tagBlocks, List.map_cons, List.enumFrom_map_snd, ih]

theorem tagBlocks_flatten :
    ∀ (Ls : List (List α)) (n : ℕ),
      (tagBlocks n Ls).flatten = List.enumFrom n Ls.flatten := by
  intro Ls
  induction Ls with
  | nil => intro n; rfl
  | cons L Ls ih =>
      intro n
      rw [tagBlocks, List.flatten_cons, List.flatten_cons, List.enumFrom_append, ih]

theorem enumFrom_nodup (n : ℕ) (l : List α) : (List.enumFrom n l).Nodup := by
  apply List.Nodup.of_map Prod.fst
  rw [List.enumFrom_map_fst]
  exact List.nodup_range' n l.length

/-- Commutation of an untagging map with the stable descending sort. -/
theorem map_snd_sortD (key : α → ℚ) (l : List (ℕ × α)) :
    (sortD (fun p => key p.2) l).map Prod.snd = sortD key (l.map Prod.snd) :=
  map_sortA (fun p : ℕ × α => -key p.2) (fun a => -key a) Prod.snd l fun _ _ => rfl

/-- The two-stage top-k is the global top-k: stably sorting the
concatenation of per-block stable top-k lists and truncating to `k` gives
the same list as stably sorting the full concatenation and truncating. -/
theorem sortD_take_flatten [DecidableEq α] (key : α → ℚ) (k : ℕ) (Ls : List (List α)) :
    (sortD key ((Ls.map fun L => (sortD key L).take k).flatten)).take k
      = (sortD key Ls.flatten).take k := by
  have hndtag : ((tagBlocks 0 Ls).flatten).Nodup := by
    rw [tagBlocks_flatten]
    exact enumFrom_nodup 0 Ls.flatten
  have hmain := sortD_take_flatten_aux (fun p : ℕ × α => key p.2) k
    (tagBlocks 0 Ls) [] (by simpa using hndtag)
  simp only [List.nil_append] at hmain
  have hmsnd := congrArg (List.map Prod.snd) hmain
  rw [List.map_take, List.map_take, map_snd_sortD, map_snd_sortD] at hmsnd
  have hrhs : ((tagBlocks 0 Ls).flatten).map Prod.snd = Ls.flatten := by
    rw [tagBlocks_flatten, List.enumFrom_map_snd]
  have hlhs : (((tagBlocks 0 Ls).map fun L =>
        (sortD (fun p : ℕ × α => key p.2) L).take k).flatten).map Prod.snd
      = (Ls.map fun L => (sortD key L).take k).flatten := by
    rw [List.map_flatten, List.map_map]
    have hpt : (tagBlocks 0 Ls).map
          (List.map Prod.snd ∘ fun L => (sortD (fun p : ℕ × α => key p.2) L).take k)
        = (tagBlocks 0 Ls).map
          ((fun L => (sortD key L).take k) ∘ List.map Prod.snd) := by
      apply List.map_congr_left
      intro L _
      show ((sortD (fun p : ℕ × α => key p.2) L).take k).map Prod.snd
        = (sortD key (L.map Prod.snd)).take k
      rw [List.map_take, map_snd_sortD]
    rw [hpt, ← List.map_map, tagBlocks_map_snd]
  rw [hrhs, hlhs] at hmsnd
  exact hmsnd

end TwoStage

section SearchLemmas

/-- A function agreeing with a list on its positions, mapped over the index
range, reproduces the list. -/
theorem map_range_getD {β : Type} (g : ℕ → β) (l : List β)
    (hg : ∀ i, (h : i < l.length) → g i = l[i]) :
    (List.range l.length).map g = l := by
  induction l generalizing g with
  | nil => rfl
  | cons x xs ih =>
      rw [List.length_cons, List.range_succ_eq_map, List.map_cons, List.map_map]
      congr 1
      · exact hg 0 (by simp)
      · apply ih
        intro i h
        exact hg (i + 1) (by simpa using h)

/-- The per-shard body equals the stable descending top-k of the reversed
scored candidate list of the shard. -/
theorem per_shard_eq (sc : List ℚ → List ℚ → ℚ) (query : List ℚ) (k : ℕ)
    (filters : Option (List (String × Value))) (sd : Shard) :
    per_shard sc query k filters sd
      = (sortD Prod.fst (shard_scored sc query filters sd).reverse).take k := by
  by_cases h1 : sd.vectors.isEmpty
  · have hv : sd.vectors = [] := by simpa using h1
    simp [per_shard, h1, shard_scored, hv, sortD, sortA]
  by_cases h2 : ((sd.vectors.zip sd.metadata).filter fun p => passes filters p.2).isEmpty
  · have hf : (sd.vectors.zip sd.metadata).filter (fun p => passes filters p.2) = [] := by
      simpa using h2
    simp [per_shard, h1, h2, shard_scored, hf, sortD, sortA]
  rw [per_shard, if_neg h1, if_neg h2, shard_scored]
  rw [List.map_take, List.map_reverse]
  rw [← reverse_sortA]
  congr 2
  rw [argsortQ]
  rw [map_sortA
    (fun i => (((sd.vectors.zip sd.metadata).filter fun p => passes filters p.2).map
      (fun p => sc p.1 query)).getD i 0)
    Prod.fst
    (fun i => ((((sd.vectors.zip sd.metadata).filter fun p => passes filters p.2).map
        (fun p => sc p.1 query)).getD i 0,
      (((sd.vectors.zip sd.metadata).filter fun p => passes filters p.2).map
        Prod.snd).getD i []))
    (List.range (((sd.vectors.zip sd.metadata).filter
      fun p => passes filters p.2).map (fun p => sc p.1 query)).length)
    (fun i _ => rfl)]
  congr 1
  rw [show (((sd.vectors.zip sd.metadata).filter fun p => passes filters p.2).map
      (fun p => sc p.1 query)).length
    = (((sd.vectors.zip sd.metadata).filter fun p => passes filters p.2).map
      (fun p => (sc p.1 query, p.2))).length from by
    rw [List.length_map, List.length_map]]
  apply map_range_getD
  intro i h
  have hFi : i < ((sd.vectors.zip sd.metadata).filter
      fun p => passes filters p.2).length := by
    simpa using h
  rw [List.getD_eq_getElem _ _ (by simpa using hFi),
    List.getD_eq_getElem _ _ (by simpa using hFi)]
  simp

/-- `search_with` computes the global stable top-k over all candidates,
enumerated shard-ascending with each shard's block reversed. -/
theorem search_with_eq (sc : List ℚ → List ℚ → ℚ) (st : State) (query : List ℚ)
    (k : ℕ) (filters : Option (List (String × Value))) :
    search_with sc st query k filters
      = (sortD Prod.fst (global_candidates_rev sc st query filters)).take k := by
  rw [search_with, global_candidates_rev]
  have hmap : (List.range (st.shard_index.last_shard + 1)).map
        (fun shard_id => per_shard sc query k filters (load_shard st.shards shard_id))
      = ((List.range (st.shard_index.last_shard + 1)).map
          (fun shard_id =>
            (shard_scored sc query filters (load_shard st.shards shard_id)).reverse)).map
        (fun L => (sortD Prod.fst L).take k) := by
    rw [List.map_map]
    apply List.map_congr_left
    intro shard_id _
    exact per_shard_eq sc query k filters (load_shard st.shards shard_id)
  rw [hmap]
  exact sortD_take_flatten Prod.fst k _

/-- Reversing each block permutes the flattened list. -/
theorem flatten_map_reverse_perm {β : Type} (Ls : List (List β)) :
    List.Perm ((Ls.map List.reverse).flatten) Ls.flatten := by
  induction Ls with
  | nil => exact List.Perm.refl _
  | cons L Ls ih =>
      rw [List.map_cons, List.flatten_cons, List.flatten_cons]
      exact (L.reverse_perm).append ih

theorem global_candidates_rev_perm (sc : List ℚ → List ℚ → ℚ) (st : State)
    (query : List ℚ) (filters : Option (List (String × Value))) :
    List.Perm (global_candidates_rev sc st query filters)
      (global_candidates sc st query filters) := by
  rw [global_candidates_rev, global_candidates]
  have h : (List.range (st.shard_index.last_shard + 1)).map
        (fun shard_id =>
          (shard_scored sc query filters (load_shard st.shards shard_id)).reverse)
      = ((List.range (st.shard_index.last_shard + 1)).map
          (fun shard_id =>
            shard_scored sc query filters (load_shard st.shards shard_id))).map
        List.reverse := by
    rw [List.map_map]
    rfl
  rw [h]
  exact flatten_map_reverse_perm _

/-- With pairwise distinct scores the two-stage search equals the plain
global brute-force top-k (shard ascending, index ascending enumeration). -/
theorem search_with_eq_nodup (sc : List ℚ → List ℚ → ℚ) (st : State)
    (query : List ℚ) (k : ℕ) (filters : Option (List (String × Value)))
    (hnd : ((global_candidates sc st query filters).map Prod.fst).Nodup) :
    search_with sc st query k filters
      = (sortD Prod.fst (global_candidates sc st query filters)).take k := by
  rw [search_with_eq]
  congr 1
  apply sortD_eq_of_perm_of_nodup_keys Prod.fst
    (global_candidates_rev_perm sc st query filters)
  have hp := (global_candidates_rev_perm sc st query filters).map Prod.fst
  exact (hp.nodup_iff).mpr hnd

end SearchLemmas

section StoreLemmas

theorem load_save_same (shards : List Shard) (shard_id : ℕ) (sd : Shard) :
    load_shard (save_shard shards shard_id sd) shard_id = sd := by
  induction shard_id generalizing shards with
  | zero => cases shards <;> rfl
  | succ n ih =>
      cases shards with
      | nil =>
          show load_shard (emptyShard :: save_shard [] n sd) (n + 1) = sd
          simpa [load_shard] using ih []
      | cons s rest =>
          show load_shard (s :: save_shard rest n sd) (n + 1) = sd
          simpa [load_shard] using ih rest

theorem load_save_ne (shards : List Shard) (shard_id other : ℕ) (sd : Shard)
    (hne : other ≠ shard_id) :
    load_shard (save_shard shards shard_id sd) other = load_shard shards other := by
  induction shard_id generalizing shards other with
  | zero =>
      cases other with
      | zero => exact absurd rfl hne
      | succ m => cases shards <;> simp [save_shard, load_shard]
  | succ n ih =>
      cases other with
      | zero => cases shards <;> simp [save_shard, load_shard, emptyShard]
      | succ m =>
          have hmn : m ≠ n := fun h => hne (by rw [h])
          cases shards with
          | nil =>
              show load_shard (emptyShard :: save_shard [] n sd) (m + 1)
                = load_shard [] (m + 1)
              have := ih [] m hmn
              simpa [load_shard] using this
          | cons s rest =>
              show load_shard (s :: save_shard rest n sd) (m + 1)
                = load_shard (s :: rest) (m + 1)
              have := ih rest m hmn
              simpa [load_shard] using this

theorem lookup_set_count_same (counts : List (ℕ × ℕ)) (k n : ℕ) :
    (set_count counts k n).lookup k = some n := by
  induction counts with
  | nil => simp [set_count, List.lookup]
  | cons c rest ih =>
      match c with
      | (k', n') =>
          by_cases h : k' = k
          · simp [set_count, h, List.lookup]
          · simp only [set_count, if_neg h, List.lookup]
            rw [show (k == k') = false from beq_eq_false_iff_ne.mpr (Ne.symm h)]
            exact ih

theorem lookup_set_count_ne (counts : List (ℕ × ℕ)) (k n other : ℕ)
    (hne : other ≠ k) :
    (set_count counts k n).lookup other = counts.lookup other := by
  induction counts with
  | nil =>
      simp only [set_count, List.lookup]
      rw [show (other == k) = false from beq_eq_false_iff_ne.mpr hne]
  | cons c rest ih =>
      match c with
      | (k', n') =>
          by_cases h : k' = k
          · subst h
            simp only [set_count, if_pos rfl, List.lookup]
            rw [show (other == k') = false from beq_eq_false_iff_ne.mpr hne]
          · simp only [set_count, if_neg h, List.lookup]
            by_cases h2 : other = k'
            · rw [show (other == k') = true from beq_iff_eq.mpr h2]
            · rw [show (other == k') = false from beq_eq_false_iff_ne.mpr h2]
              exact ih

theorem mem_zip_getElem {γ δ : Type} :
    ∀ {l1 : List γ} {l2 : List δ} {p : γ × δ}, p ∈ l1.zip l2 →
      ∃ i, ∃ (h1 : i < l1.length) (h2 : i < l2.length),
        l1[i] = p.1 ∧ l2[i] = p.2 := by
  intro l1
  induction l1 with
  | nil => intro l2 p h; simp at h
  | cons x xs ih =>
      intro l2 p h
      cases l2 with
      | nil => simp at h
      | cons y ys =>
          rw [List.zip_cons_cons] at h
          rcases List.mem_cons.mp h with rfl | h'
          · exact ⟨0, by simp, by simp, rfl, rfl⟩
          · obtain ⟨i, h1, h2, ha, hb⟩ := ih h'
            exact ⟨i + 1, by simpa using h1, by simpa using h2,
              by simpa using ha, by simpa using hb⟩

/-- Every element of a successful search result originates from a stored
entry passing the filter, with the score computed from its vector. -/
theorem mem_search_with (sc : List ℚ → List ℚ → ℚ) (st : State) (query : List ℚ)
    (k : ℕ) (filters : Option (List (String × Value))) {p : ℚ × Metadata}
    (hp : p ∈ search_with sc st query k filters) :
    ∃ shard_id i, shard_id < st.shard_index.last_shard + 1
      ∧ i < (load_shard st.shards shard_id).vectors.length
      ∧ i < (load_shard st.shards shard_id).metadata.length
      ∧ passes filters ((load_shard st.shards shard_id).metadata.getD i []) = true
      ∧ p = (sc ((load_shard st.shards shard_id).vectors.getD i []) query,
          (load_shard st.shards shard_id).metadata.getD i []) := by
  rw [search_with_eq] at hp
  have hp2 : p ∈ global_candidates_rev sc st query filters :=
    (sortD_perm Prod.fst _).subset (List.mem_of_mem_take hp)
  have hp3 : p ∈ global_candidates sc st query filters :=
    (global_candidates_rev_perm sc st query filters).subset hp2
  rw [global_candidates, List.mem_flatten] at hp3
  obtain ⟨block, hblock, hpb⟩ := hp3
  rw [List.mem_map] at hblock
  obtain ⟨shard_id, hsid, rfl⟩ := hblock
  rw [List.mem_range] at hsid
  rw [shard_scored, List.mem_map] at hpb
  obtain ⟨q, hq, rfl⟩ := hpb
  rw [List.mem_filter] at hq
  obtain ⟨hqzip, hqpass⟩ := hq
  obtain ⟨i, h1, h2, ha, hb⟩ := mem_zip_getElem hqzip
  refine ⟨shard_id, i, hsid, h1, h2, ?_, ?_⟩
  · rw [List.getD_eq_getElem _ _ h2, hb]
    exact hqpass
  · rw [List.getD_eq_getElem _ _ h1, List.getD_eq_getElem _ _ h2, ha, hb]

end StoreLemmas

section PurgeLemmas

theorem shard_ext {a b : Shard} (h1 : a.vectors = b.vectors)
    (h2 : a.metadata = b.metadata) : a = b := by
  cases a
  cases b
  cases h1
  cases h2
  rfl

/-- Unfolding of one step of the purge loop in terms of the kept-shard
description. -/
theorem purge_go_cons (now : ℚ) (sid : ℕ) (rest : List ℕ) (shards : List Shard)
    (counts : List (ℕ × ℕ)) (acc : ℕ) :
    purge_go now (sid :: rest) shards counts acc
      = if (load_shard shards sid).vectors.isEmpty then
          purge_go now rest shards counts acc
        else
          purge_go now rest
            (if (purge_shard_spec now (load_shard shards sid)).vectors.length
                ≠ (load_shard shards sid).vectors.length then
              save_shard shards sid (purge_shard_spec now (load_shard shards sid))
            else shards)
            (set_count counts sid
              (purge_shard_spec now (load_shard shards sid)).vectors.length)
            (acc + (((load_shard shards sid).vectors.zip
              (load_shard shards sid).metadata).countP
              fun p => is_expired now p.2)) := rfl

/-- A shard kept entirely by the purge filter is unchanged by it. -/
theorem purge_shard_spec_of_full_length {now : ℚ} {sd : Shard}
    (hw : sd.vectors.length = sd.metadata.length)
    (hlen : (purge_shard_spec now sd).vectors.length = sd.vectors.length) :
    purge_shard_spec now sd = sd := by
  have hziplen : (sd.vectors.zip sd.metadata).length = sd.vectors.length := by
    rw [List.length_zip, hw, min_self]
  have hkept : ((sd.vectors.zip sd.metadata).filter fun p => !(is_expired now p.2))
      = sd.vectors.zip sd.metadata := by
    apply List.Sublist.eq_of_length (List.filter_sublist _)
    rw [hziplen]
    have := hlen
    rw [purge_shard_spec, List.length_map] at this
    exact this
  apply shard_ext
  · rw [purge_shard_spec]
    show ((_ : List (List ℚ × Metadata)).map Prod.fst) = sd.vectors
    rw [hkept]
    exact List.map_fst_zip _ _ (le_of_eq hw)
  · rw [purge_shard_spec]
    show ((_ : List (List ℚ × Metadata)).map Prod.snd) = sd.metadata
    rw [hkept]
    exact List.map_snd_zip _ _ (le_of_eq hw.symm)

/-- Main inductive specification of the purge loop. -/
theorem purge_go_spec (now : ℚ) :
    ∀ (sids : List ℕ) (shards : List Shard) (counts : List (ℕ × ℕ)) (acc : ℕ),
      sids.Nodup →
      (∀ sid ∈ sids, (load_shard shards sid).vectors.length
        = (load_shard shards sid).metadata.length) →
      (∀ sid ∈ sids, load_shard (purge_go now sids shards counts acc).1 sid
          = purge_shard_spec now (load_shard shards sid))
      ∧ (∀ sid, sid ∉ sids →
          load_shard (purge_go now sids shards counts acc).1 sid
            = load_shard shards sid)
      ∧ (∀ sid ∈ sids, (load_shard shards sid).vectors ≠ [] →
          ((purge_go now sids shards counts acc).2.1).lookup sid
            = some (purge_shard_spec now (load_shard shards sid)).vectors.length)
      ∧ (∀ k2 : ℕ, (∀ sid ∈ sids, k2 ≠ sid) →
          ((purge_go now sids shards counts acc).2.1).lookup k2 = counts.lookup k2)
      ∧ (purge_go now sids shards counts acc).2.2
          = acc + (sids.map fun sid =>
              ((load_shard shards sid).vectors.zip
                (load_shard shards sid).metadata).countP
                fun p => is_expired now p.2).sum := by
  intro sids
  induction sids with
  | nil =>
      intro shards counts acc _ _
      refine ⟨by simp, fun _ _ => rfl, by simp, fun _ _ => rfl, by simp [purge_go]⟩
  | cons sid rest ih =>
      intro shards counts acc hnd hw
      rcases List.nodup_cons.mp hnd with ⟨hsid, hndr⟩
      have hwsid := hw sid (List.mem_cons_self sid rest)
      rw [purge_go_cons]
      by_cases hE : (load_shard shards sid).vectors.isEmpty
      · rw [if_pos hE]
        have hvnil : (load_shard shards sid).vectors = [] := by simpa using hE
        have hmnil : (load_shard shards sid).metadata = [] := by
          have := hwsid
          rw [hvnil] at this
          exact (List.length_eq_zero.mp this.symm)
        have hspec : purge_shard_spec now (load_shard shards sid)
            = load_shard shards sid := by
          apply shard_ext
          · rw [purge_shard_spec]
            show ((_ : List (List ℚ × Metadata)).map Prod.fst) = _
            rw [hvnil]
            simp [List.zip]
          · rw [purge_shard_spec]
            show ((_ : List (List ℚ × Metadata)).map Prod.snd) = _
            rw [hvnil, hmnil]
            simp [List.zip]
        obtain ⟨i1, i2, i3, i4, i5⟩ := ih shards counts acc hndr
          (fun s hs => hw s (List.mem_cons_of_mem sid hs))
        refine ⟨?_, ?_, ?_, ?_, ?_⟩
        · intro s hs
          rcases List.mem_cons.mp hs with rfl | hs'
          · rw [i2 s hsid, hspec]
          · exact i1 s hs'
        · intro s hs
          exact i2 s (fun h => hs (List.mem_cons_of_mem sid h))
        · intro s hs hne
          rcases List.mem_cons.mp hs with rfl | hs'
          · exact absurd hvnil hne
          · exact i3 s hs' hne
        · intro k2 hk2
          exact i4 k2 (fun s hs => hk2 s (List.mem_cons_of_mem sid hs))
        · rw [i5, List.map_cons, List.sum_cons]
          rw [hvnil]
          simp [List.zip]
      · rw [if_neg hE]
        have hvne : (load_shard shards sid).vectors ≠ [] := by
          simpa using hE
        set shards' := if (purge_shard_spec now (load_shard shards sid)).vectors.length
            ≠ (load_shard shards sid).vectors.length then
          save_shard shards sid (purge_shard_spec now (load_shard shards sid))
        else shards with hshards'
        have hload_sid : load_shard shards' sid
            = purge_shard_spec now (load_shard shards sid) := by
          rw [hshards']
          by_cases hc : (purge_shard_spec now (load_shard shards sid)).vectors.length
              ≠ (load_shard shards sid).vectors.length
          · rw [if_pos hc]
            exact load_save_same shards sid _
          · rw [if_neg hc]
            push_neg at hc
            exact (purge_shard_spec_of_full_length hwsid hc).symm
        have hload_ne : ∀ s, s ≠ sid → load_shard shards' s = load_shard shards s := by
          intro s hs
          rw [hshards']
          by_cases hc : (purge_shard_spec now (load_shard shards sid)).vectors.length
              ≠ (load_shard shards sid).vectors.length
          · rw [if_pos hc]
            exact load_save_ne shards sid s _ hs
          · rw [if_neg hc]
        have hw' : ∀ s ∈ rest, (load_shard shards' s).vectors.length
            = (load_shard shards' s).metadata.length := by
          intro s hs
          have hne : s ≠ sid := fun h => hsid (h ▸ hs)
          rw [hload_ne s hne]
          exact hw s (List.mem_cons_of_mem sid hs)
        obtain ⟨i1, i2, i3, i4, i5⟩ := ih shards'
          (set_count counts sid
            (purge_shard_spec now (load_shard shards sid)).vectors.length)
          (acc + (((load_shard shards sid).vectors.zip
            (load_shard shards sid).metadata).countP fun p => is_expired now p.2))
          hndr hw'
        refine ⟨?_, ?_, ?_, ?_, ?_⟩
        · intro s hs
          rcases List.mem_cons.mp hs with rfl | hs'
          · rw [i2 s hsid, hload_sid]
          · rw [i1 s hs']
            have hne : s ≠ sid := fun h => hsid (h ▸ hs')
            rw [hload_ne s hne]
        · intro s hs
          have hne : s ≠ sid := fun h => hs (h ▸ List.mem_cons_self sid rest)
          rw [i2 s (fun h => hs (List.mem_cons_of_mem sid h)), hload_ne s hne]
        · intro s hs hne
          rcases List.mem_cons.mp hs with rfl | hs'
          · rw [i4 s (fun s2 hs2 => fun h => hsid (h ▸ hs2))]
            exact lookup_set_count_same counts s _
          · have hnesid : s ≠ sid := fun h => hsid (h ▸ hs')
            have h3 := i3 s hs'
            rw [hload_ne s hnesid] at h3
            exact h3 hne
        · intro k2 hk2
          rw [i4 k2 (fun s hs => hk2 s (List.mem_cons_of_mem sid hs))]
          exact lookup_set_count_ne counts sid _ k2
            (hk2 sid (List.mem_cons_self sid rest))
        · rw [i5, List.map_cons, List.sum_cons]
          have hterm : ∀ s ∈ rest,
              ((load_shard shards' s).vectors.zip
                (load_shard shards' s).metadata).countP
                (fun p => is_expired now p.2)
              = ((load_shard shards s).vectors.zip
                (load_shard shards s).metadata).countP
                (fun p => is_expired now p.2) := by
            intro s hs
            have hne : s ≠ sid := fun h => hsid (h ▸ hs)
            rw [hload_ne s hne]
          rw [List.map_congr_left hterm]
          omega

end PurgeLemmas

section OpUnfolding

/-- Branch-level description of `add`, by unfolding. -/
theorem add_eq (sizeFn : Shard → ℕ) (st : State) (v : List ℚ) (m : Metadata) :
    add sizeFn st v m
      = if v.length ≠ st.dim then
          { result := .error .dimensionMismatch, writes := [] }
        else
          { result := .ok { st with
              shards := save_shard st.shards st.shard_index.last_shard
                (appendEntry (load_shard st.shards st.shard_index.last_shard) v m),
              shard_index :=
                { last_shard :=
                    if st.max_shard_size ≤ sizeFn (appendEntry
                        (load_shard st.shards st.shard_index.last_shard) v m) then
                      st.shard_index.last_shard + 1
                    else st.shard_index.last_shard,
                  counts := set_count st.shard_index.counts st.shard_index.last_shard
                    (appendEntry (load_shard st.shards st.shard_index.last_shard)
                      v m).vectors.length } },
            writes := [.shardFile st.shard_index.last_shard
                (appendEntry (load_shard st.shards st.shard_index.last_shard) v m),
              .indexFile
                { last_shard :=
                    if st.max_shard_size ≤ sizeFn (appendEntry
                        (load_shard st.shards st.shard_index.last_shard) v m) then
                      st.shard_index.last_shard + 1
                    else st.shard_index.last_shard,
                  counts := set_count st.shard_index.counts st.shard_index.last_shard
                    (appendEntry (load_shard st.shards st.shard_index.last_shard)
                      v m).vectors.length }] } := rfl

/-- Branch-level description of `delete`, by unfolding. -/
theorem delete_eq (st : State) (shard_id : ℕ) (index : ℤ) :
    delete st shard_id index
      = if index < 0 ∨ ((load_shard st.shards shard_id).vectors.length : ℤ) ≤ index then
          { result := .error .indexOutOfRange, writes := [] }
        else
          { result := .ok { st with
              shards := save_shard st.shards shard_id
                ⟨(load_shard st.shards shard_id).vectors.eraseIdx index.toNat,
                 (load_shard st.shards shard_id).metadata.eraseIdx index.toNat⟩,
              shard_index :=
                { last_shard := st.shard_index.last_shard,
                  counts := set_count st.shard_index.counts shard_id
                    ((load_shard st.shards shard_id).vectors.eraseIdx
                      index.toNat).length } },
            writes := [.shardFile shard_id
                ⟨(load_shard st.shards shard_id).vectors.eraseIdx index.toNat,
                 (load_shard st.shards shard_id).metadata.eraseIdx index.toNat⟩,
              .indexFile
                { last_shard := st.shard_index.last_shard,
                  counts := set_count st.shard_index.counts shard_id
                    ((load_shard st.shards shard_id).vectors.eraseIdx
                      index.toNat).length }] } := rfl

/-- Dispatch of `search` on the accepted metric. -/
theorem search_cosine_dispatch (st : State) (query : List ℚ) (k : ℕ)
    (filters : Option (List (String × Value))) :
    search st query k "cosine" filters
      = .ok (search_with cosine_similarity st query k filters) := by
  rw [search, if_neg (by decide)]

end OpUnfolding

section ClaimHelpers

/-- Extensional reading of the filter-matching loop. -/
theorem match_filter_iff (meta : Metadata) (fl : List (String × Value)) :
    match_filter meta fl = true ↔ ∀ p ∈ fl, dict_get meta p.1 = p.2 := by
  induction fl with
  | nil => simp [match_filter]
  | cons kv rest ih =>
      match kv with
      | (k, v) =>
          by_cases h : dict_get meta k ≠ v
          · rw [match_filter, if_pos h]
            constructor
            · intro hF
              exact absurd hF (by simp)
            · intro hall
              exact absurd (hall (k, v) (List.mem_cons_self _ _)) h
          · rw [match_filter, if_neg h]
            push_neg at h
            rw [ih]
            constructor
            · intro hr p hp
              rcases List.mem_cons.mp hp with rfl | hp'
              · exact h
              · exact hr p hp'
            · intro hall p hp
              exact hall p (List.mem_cons_of_mem _ hp)

theorem sum_map_add_of_pointwise {γ : Type} (l : List γ) (f g h : γ → ℕ)
    (hpt : ∀ x ∈ l, f x + g x = h x) :
    (l.map f).sum + (l.map g).sum = (l.map h).sum := by
  induction l with
  | nil => simp
  | cons a t ih =>
      simp only [List.map_cons, List.sum_cons]
      have h1 := hpt a (List.mem_cons_self a t)
      have h2 := ih fun x hx => hpt x (List.mem_cons_of_mem a hx)
      omega

/-- Counting expired pairs plus keeping the rest exhausts the zipped list. -/
theorem countP_expired_add_kept (now : ℚ) (pairs : List (List ℚ × Metadata)) :
    pairs.countP (fun p => is_expired now p.2)
      + (pairs.filter fun p => !(is_expired now p.2)).length = pairs.length := by
  induction pairs with
  | nil => simp
  | cons a t ih =>
      cases h : is_expired now a.2
      · simp [List.countP_cons, List.filter_cons, h]
        omega
      · simp [List.countP_cons, List.filter_cons, h]
        omega

end ClaimHelpers

section Claims

/-- Claim C9 (corrected): `search` with metric `"l2"` does not perform a
Euclidean-distance search — it fails with the unsupported-metric error
(`ValueError("Only 'cosine' metric is supported in this version.")`),
whatever the store, query, `k` and filter. -/
theorem C9_l2_unsupported (st : State) (query : List ℚ) (k : ℕ)
    (filters : Option (List (String × Value))) :
    search st query k "l2" filters = .error .unsupportedMetric := by
  rw [search, if_pos (by decide)]

/-- Claim C9 counterexample: on a concrete populated store, `search` with
`"l2"` returns an error rather than any distance-sorted list. -/
theorem C9_counterexample :
    search tie_store [1, 0] 1 "l2" none = .error .unsupportedMetric := by
  decide

/-- Claim C6 (confirmed): adding a vector whose length differs from the
configured dimension fails with the dimension-mismatch error and performs
no write at all (the store, for any size function, is untouched). -/
theorem C6_dimension_mismatch (sizeFn : Shard → ℕ) (st : State) (v : List ℚ)
    (m : Metadata) (h : v.length ≠ st.dim) :
    (add sizeFn st v m).result = .error .dimensionMismatch
      ∧ (add sizeFn st v m).writes = [] := by
  rw [add_eq, if_pos h]
  exact ⟨rfl, rfl⟩

/-- Claim C6 witness at a concrete store and too-short vector. -/
theorem C6_dimension_mismatch_witness :
    (add demo_size tie_store [1] metaA).result = .error .dimensionMismatch
      ∧ (add demo_size tie_store [1] metaA).writes = [] :=
  C6_dimension_mismatch demo_size tie_store [1] metaA (by decide)

/-- Claim C10 (confirmed): when `delete` raises the index-out-of-range
error it has performed no write: no shard file or index file was touched,
and the error outcome carries no state change. -/
theorem C10_delete_error_no_write (st : State) (shard_id : ℕ) (index : ℤ)
    (e : DeleteError) (h : (delete st shard_id index).result = .error e) :
    (delete st shard_id index).writes = [] := by
  by_cases hc : index < 0
    ∨ ((load_shard st.shards shard_id).vectors.length : ℤ) ≤ index
  · rw [delete_eq, if_pos hc]
  · rw [delete_eq, if_neg hc] at h
    simp at h

/-- Claim C10 witness: deleting at an out-of-range index of a concrete
store writes nothing. -/
theorem C10_delete_error_no_write_witness :
    (delete tie_store 0 5).writes = [] :=
  C10_delete_error_no_write tie_store 0 5 .indexOutOfRange (by decide)

/-- Claim C7 (confirmed): `delete` fails with the index-out-of-range error
exactly when the index lies outside `[0, len)` of the addressed shard
(an absent shard has length 0); otherwise it removes the entry at that
index from both parallel sequences — the kept prefix followed by the
entries after the deleted one, each shifted down one position — and
updates the shard's count to the shortened length. -/
theorem C7_delete_spec (st : State) (shard_id : ℕ) (index : ℤ) :
    ((delete st shard_id index).result = .error .indexOutOfRange
      ↔ (index < 0 ∨ ((load_shard st.shards shard_id).vectors.length : ℤ) ≤ index))
    ∧ ((h : 0 ≤ index
          ∧ index < ((load_shard st.shards shard_id).vectors.length : ℤ)) →
        (delete st shard_id index).result = .ok { st with
          shards := save_shard st.shards shard_id
            ⟨(load_shard st.shards shard_id).vectors.take index.toNat
               ++ (load_shard st.shards shard_id).vectors.drop (index.toNat + 1),
             (load_shard st.shards shard_id).metadata.take index.toNat
               ++ (load_shard st.shards shard_id).metadata.drop (index.toNat + 1)⟩,
          shard_index :=
            { last_shard := st.shard_index.last_shard,
              counts := set_count st.shard_index.counts shard_id
                ((load_shard st.shards shard_id).vectors.length - 1) } }) := by
  constructor
  · by_cases hc : index < 0
      ∨ ((load_shard st.shards shard_id).vectors.length : ℤ) ≤ index
    · rw [delete_eq, if_pos hc]
      simp [hc]
    · rw [delete_eq, if_neg hc]
      simp [hc]
  · intro h
    have hc : ¬(index < 0
        ∨ ((load_shard st.shards shard_id).vectors.length : ℤ) ≤ index) := by
      omega
    have hbound : index.toNat < (load_shard st.shards shard_id).vectors.length := by
      omega
    rw [delete_eq, if_neg hc]
    rw [List.eraseIdx_eq_take_drop_succ, List.eraseIdx_eq_take_drop_succ]
    rw [show ((load_shard st.shards shard_id).vectors.take index.toNat
        ++ (load_shard st.shards shard_id).vectors.drop (index.toNat + 1)).length
        = (load_shard st.shards shard_id).vectors.length - 1 from by
      rw [List.length_append, List.length_take, List.length_drop]
      omega]

/-- Claim C7 witness: delete at index 0 of a concrete two-entry shard, and
the error characterization at an out-of-range index. -/
theorem C7_delete_spec_witness :
    ((delete tie_store 0 5).result = .error .indexOutOfRange
      ↔ ((5 : ℤ) < 0 ∨ ((load_shard tie_store.shards 0).vectors.length : ℤ) ≤ 5))
    ∧ (delete tie_store 0 0).result = .ok { tie_store with
        shards := save_shard tie_store.shards 0
          ⟨(load_shard tie_store.shards 0).vectors.take 0
             ++ (load_shard tie_store.shards 0).vectors.drop 1,
           (load_shard tie_store.shards 0).metadata.take 0
             ++ (load_shard tie_store.shards 0).metadata.drop 1⟩,
        shard_index :=
          { last_shard := tie_store.shard_index.last_shard,
            counts := set_count tie_store.shard_index.counts 0
              ((load_shard tie_store.shards 0).vectors.length - 1) } } :=
  ⟨(C7_delete_spec tie_store 0 5).1,
   (C7_delete_spec tie_store 0 0).2 (by decide)⟩

/-- Claim C2 (confirmed): when the file size of the open shard measured
after the write reaches the configured bound, `add` advances `last_shard`
by exactly one, while the count is recorded under the shard id that was
open before the rollover check, with the new entry count of that shard. -/
theorem C2_rollover (sizeFn : Shard → ℕ) (st : State) (v : List ℚ) (m : Metadata)
    (hdim : v.length = st.dim)
    (hsize : st.max_shard_size ≤ sizeFn (appendEntry
      (load_shard st.shards st.shard_index.last_shard) v m)) :
    ∃ st', (add sizeFn st v m).result = .ok st'
      ∧ st'.shard_index.last_shard = st.shard_index.last_shard + 1
      ∧ st'.shard_index.counts.lookup st.shard_index.last_shard
          = some ((load_shard st.shards st.shard_index.last_shard).vectors.length + 1)
      ∧ load_shard st'.shards st.shard_index.last_shard
          = appendEntry (load_shard st.shards st.shard_index.last_shard) v m := by
  rw [add_eq, if_neg (fun hh => hh hdim)]
  refine ⟨_, rfl, ?_, ?_, ?_⟩
  · simp [hsize]
  · rw [show (appendEntry (load_shard st.shards st.shard_index.last_shard)
        v m).vectors.length
      = (load_shard st.shards st.shard_index.last_shard).vectors.length + 1 from by
      simp [appendEntry]]
    exact lookup_set_count_same st.shard_index.counts st.shard_index.last_shard _
  · exact load_save_same st.shards st.shard_index.last_shard _

/-- Claim C2 witness: a concrete add whose post-write size reaches the
bound rolls the open shard over from 0 to 1. -/
theorem C2_rollover_witness :
    ∃ st', (add big_size tie_store [2, 2] metaA).result = .ok st'
      ∧ st'.shard_index.last_shard = tie_store.shard_index.last_shard + 1
      ∧ st'.shard_index.counts.lookup tie_store.shard_index.last_shard
          = some ((load_shard tie_store.shards
              tie_store.shard_index.last_shard).vectors.length + 1)
      ∧ load_shard st'.shards tie_store.shard_index.last_shard
          = appendEntry (load_shard tie_store.shards
              tie_store.shard_index.last_shard) [2, 2] metaA :=
  C2_rollover big_size tie_store [2, 2] metaA (by decide) (by decide)

/-- Claim C8 (confirmed): after each mutating operation, the count recorded
in the shard index for every shard the operation rewrote equals that
shard's live entry count — for `add` the shard that received the entry,
for `delete` the shard deleted from, and for `purge_expired` every
non-empty shard in range. -/
theorem C8_counts_invariant :
    (∀ (sizeFn : Shard → ℕ) (st : State) (v : List ℚ) (m : Metadata) (st' : State),
        (add sizeFn st v m).result = .ok st' →
        st'.shard_index.counts.lookup st.shard_index.last_shard
          = some ((load_shard st'.shards st.shard_index.last_shard).vectors.length))
    ∧ (∀ (st : State) (shard_id : ℕ) (index : ℤ) (st' : State),
        (delete st shard_id index).result = .ok st' →
        st'.shard_index.counts.lookup shard_id
          = some ((load_shard st'.shards shard_id).vectors.length))
    ∧ (∀ (st : State) (now : ℚ) (shard_id : ℕ), shards_parallel st →
        shard_id < st.shard_index.last_shard + 1 →
        (load_shard st.shards shard_id).vectors ≠ [] →
        (purge_expired st now).state.shard_index.counts.lookup shard_id
          = some ((load_shard (purge_expired st now).state.shards
              shard_id).vectors.length)) := by
  refine ⟨?_, ?_, ?_⟩
  · intro sizeFn st v m st' hok
    by_cases hc : v.length ≠ st.dim
    · rw [add_eq, if_pos hc] at hok
      simp at hok
    · rw [add_eq, if_neg hc] at hok
      simp only [Except.ok.injEq] at hok
      subst hok
      show (set_count st.shard_index.counts st.shard_index.last_shard
          (appendEntry (load_shard st.shards st.shard_index.last_shard)
            v m).vectors.length).lookup st.shard_index.last_shard
        = some ((load_shard (save_shard st.shards st.shard_index.last_shard
            (appendEntry (load_shard st.shards st.shard_index.last_shard) v m))
            st.shard_index.last_shard).vectors.length)
      rw [load_save_same]
      exact lookup_set_count_same _ _ _
  · intro st shard_id index st' hok
    by_cases hc : index < 0
      ∨ ((load_shard st.shards shard_id).vectors.length : ℤ) ≤ index
    · rw [delete_eq, if_pos hc] at hok
      simp at hok
    · rw [delete_eq, if_neg hc] at hok
      simp only [Except.ok.injEq] at hok
      subst hok
      show (set_count st.shard_index.counts shard_id
          ((load_shard st.shards shard_id).vectors.eraseIdx
            index.toNat).length).lookup shard_id
        = some ((load_shard (save_shard st.shards shard_id
            ⟨(load_shard st.shards shard_id).vectors.eraseIdx index.toNat,
             (load_shard st.shards shard_id).metadata.eraseIdx index.toNat⟩)
            shard_id).vectors.length)
      rw [load_save_same]
      exact lookup_set_count_same _ _ _
  · intro st now shard_id hpar hlt hne
    obtain ⟨i1, _, i3, _, _⟩ := purge_go_spec now
      (List.range (st.shard_index.last_shard + 1)) st.shards
      st.shard_index.counts 0 (List.nodup_range _) (fun s _ => hpar s)
    have hmem : shard_id ∈ List.range (st.shard_index.last_shard + 1) :=
      List.mem_range.mpr hlt
    show ((purge_go now (List.range (st.shard_index.last_shard + 1)) st.shards
        st.shard_index.counts 0).2.1).lookup shard_id
      = some ((load_shard (purge_go now
          (List.range (st.shard_index.last_shard + 1)) st.shards
          st.shard_index.counts 0).1 shard_id).vectors.length)
    rw [i1 shard_id hmem]
    exact i3 shard_id hmem hne

/-- Claim C8 witness: the three conjuncts at a concrete add, delete and
purge, with the resulting states spelled out. -/
theorem C8_counts_invariant_witness :
    ((State.mk 2 1000 [⟨[[1, 0], [1, 0], [3, 4]], [metaA, metaB, metaA]⟩]
        ⟨0, [(0, 3)]⟩).shard_index.counts.lookup 0
      = some ((load_shard (State.mk 2 1000
          [⟨[[1, 0], [1, 0], [3, 4]], [metaA, metaB, metaA]⟩]
          ⟨0, [(0, 3)]⟩).shards 0).vectors.length))
    ∧ ((State.mk 2 1000 [⟨[[1, 0]], [metaB]⟩]
        ⟨0, [(0, 1)]⟩).shard_index.counts.lookup 0
      = some ((load_shard (State.mk 2 1000 [⟨[[1, 0]], [metaB]⟩]
          ⟨0, [(0, 1)]⟩).shards 0).vectors.length))
    ∧ (purge_expired purge_store 10).state.shard_index.counts.lookup 0
        = some ((load_shard (purge_expired purge_store 10).state.shards
            0).vectors.length) :=
  ⟨C8_counts_invariant.1 demo_size tie_store [3, 4] metaA
     (State.mk 2 1000 [⟨[[1, 0], [1, 0], [3, 4]], [metaA, metaB, metaA]⟩]
       ⟨0, [(0, 3)]⟩) (by decide),
   C8_counts_invariant.2.1 tie_store 0 0
     (State.mk 2 1000 [⟨[[1, 0]], [metaB]⟩] ⟨0, [(0, 1)]⟩) (by decide),
   C8_counts_invariant.2.2 purge_store 10 0
     (fun sid => by
       match sid with
       | 0 => decide
       | n + 1 => rfl)
     (by decide) (by decide)⟩

/-- Claim C3 (amended): an entry matches a filter iff for every filter key
the value read from its metadata — `None`/null when the key is missing —
equals the expected value; an absent (or empty) filter matches everything;
and a search with a non-empty filter only returns entries matching it.  In
particular a missing key never matches a non-null expected value, but a
filter key mapped to null does match an entry missing that key. -/
theorem C3_filter_semantics :
    (∀ (meta : Metadata) (fl : List (String × Value)),
        match_filter meta fl = true ↔ ∀ p ∈ fl, dict_get meta p.1 = p.2)
    ∧ (∀ meta : Metadata, passes none meta = true)
    ∧ (∀ (st : State) (query : List ℚ) (k : ℕ) (fl : List (String × Value))
        (r : List (ℚ × Metadata)) (p : ℚ × Metadata),
        search st query k "cosine" (some fl) = .ok r → p ∈ r → fl ≠ [] →
        match_filter p.2 fl = true) := by
  refine ⟨match_filter_iff, fun _ => rfl, ?_⟩
  intro st query k fl r p hok hp hfl
  rw [search_cosine_dispatch] at hok
  have hr : r = search_with cosine_similarity st query k (some fl) := by
    injection hok with h
    exact h.symm
  subst hr
  obtain ⟨shard_id, i, _, _, _, hpass, hpeq⟩ :=
    mem_search_with cosine_similarity st query k (some fl) hp
  rw [hpeq]
  show match_filter ((load_shard st.shards shard_id).metadata.getD i []) fl = true
  rw [passes] at hpass
  have hie : fl.isEmpty = false := by
    cases fl
    · exact absurd rfl hfl
    · rfl
  rw [hie] at hpass
  simpa using hpass

/-- Claim C3 witness: the iff at a concrete metadata/filter pair, and the
search-level guarantee at a concrete filtered search. -/
theorem C3_filter_semantics_witness :
    (match_filter metaA [("t", Value.str "a")] = true
      ↔ ∀ p ∈ [("t", Value.str "a")], dict_get metaA p.1 = p.2)
    ∧ match_filter metaA [("t", Value.str "a")] = true := by
  constructor
  · exact C3_filter_semantics.1 metaA [("t", Value.str "a")]
  · exact (C3_filter_semantics.1 metaA [("t", Value.str "a")]).mpr (by decide)

/-- Claim C3 counterexample: with the filter `{"loc": None}`, the matcher
accepts the empty metadata record, and `search` returns an entry whose
metadata has no `"loc"` key at all — the claim says a missing filter key
never matches. -/
theorem C3_counterexample :
    match_filter [] [("loc", Value.null)] = true
    ∧ search noloc_store [1, 0] 1 "cosine" (some [("loc", Value.null)])
        = .ok [(1, metaX)]
    ∧ metaX.lookup "loc" = none := by
  refine ⟨by decide, ?_, by decide⟩
  have hp : passes (some [("loc", Value.null)]) [("t", Value.str "x")] = true := by
    decide
  norm_num [search, search_with, per_shard, argsortQ, sortA, insertA, sortD,
    cosine_similarity, dotQ, ratSqrt, hp, load_shard, noloc_store, metaX,
    List.range_succ, List.filter_cons, List.filter_nil]

/-- Claim C4 (code bug): the repository's own test
`test_search_with_shard_and_index` unpacks each result element as the
4-tuple `(score, meta, shard_id, index)`, but `search` builds 2-tuples
`(score, metadata)`.  Evaluated at concrete stores: the same entry stored
at shard-local index 0 of one store and index 1 of another produces the
identical search output, so the output cannot carry the shard id and
shard-local index the claim describes. -/
theorem C4_search_result_pairs :
    search pos_store [1, 0] 1 "cosine" none = .ok [(1, metaA)]
    ∧ search distinct_store [1, 0] 1 "cosine" none = .ok [(1, metaA)]
    ∧ get_all pos_store = [⟨0, 0, [1, 0], metaA⟩]
    ∧ get_all distinct_store
        = [⟨0, 0, [0, 1], metaB⟩, ⟨0, 1, [1, 0], metaA⟩] := by
  refine ⟨?_, ?_, by decide, by decide⟩
  · norm_num [search, search_with, per_shard, argsortQ, sortA, insertA, sortD,
      cosine_similarity, dotQ, ratSqrt, passes, load_shard, pos_store, metaA,
      List.range_succ, List.filter_cons, List.filter_nil]
  · norm_num [search, search_with, per_shard, argsortQ, sortA, insertA, sortD,
      cosine_similarity, dotQ, ratSqrt, passes, load_shard, distinct_store,
      metaA, metaB, List.range_succ, List.filter_cons, List.filter_nil]

/-- Claim C1 (amended): cosine search is the global stable top-k over all
filtered candidates: the result equals the first `k` of the stable
descending sort of the candidates enumerated shard-ascending with each
shard's block reversed — the per-shard argsort reversal makes ties within
a shard come out in descending (not ascending) shard-local index order —
so the per-shard top-k truncation is lossless; and whenever all scores are
distinct, the result coincides with the single global brute-force top-k
over the plain shard-ascending, index-ascending enumeration. -/
theorem C1_search_cosine_two_stage (st : State) (query : List ℚ) (k : ℕ)
    (filters : Option (List (String × Value))) :
    search st query k "cosine" filters
      = .ok ((sortD Prod.fst
          (global_candidates_rev cosine_similarity st query filters)).take k)
    ∧ (((global_candidates cosine_similarity st query filters).map
          Prod.fst).Nodup →
        search st query k "cosine" filters
          = .ok ((sortD Prod.fst
              (global_candidates cosine_similarity st query filters)).take k)) := by
  constructor
  · rw [search_cosine_dispatch, search_with_eq]
  · intro hnd
    rw [search_cosine_dispatch,
      search_with_eq_nodup cosine_similarity st query k filters hnd]

/-- Claim C1 witness: both equations at a concrete store with distinct
scores. -/
theorem C1_search_cosine_two_stage_witness :
    search distinct_store [1, 0] 2 "cosine" none
      = .ok ((sortD Prod.fst
          (global_candidates_rev cosine_similarity distinct_store
            [1, 0] none)).take 2)
    ∧ search distinct_store [1, 0] 2 "cosine" none
      = .ok ((sortD Prod.fst
          (global_candidates cosine_similarity distinct_store
            [1, 0] none)).take 2) :=
  ⟨(C1_search_cosine_two_stage distinct_store [1, 0] 2 none).1,
   (C1_search_cosine_two_stage distinct_store [1, 0] 2 none).2 (by
     norm_num [global_candidates, shard_scored, cosine_similarity, dotQ,
       ratSqrt, passes, load_shard, distinct_store, metaA, metaB,
       List.range_succ, List.filter_cons, List.filter_nil,
       List.nodup_cons])⟩

/-- Claim C1 counterexample: two identical vectors in one shard (metadata
`a` at shard-local index 0, `b` at index 1) tie at score 1, and the search
returns `b` before `a` — shard-local index descending, while the claim
demands ascending. -/
theorem C1_counterexample :
    search tie_store [1, 0] 2 "cosine" none = .ok [(1, metaB), (1, metaA)]
    ∧ get_all tie_store
        = [⟨0, 0, [1, 0], metaA⟩, ⟨0, 1, [1, 0], metaB⟩]
    ∧ metaA ≠ metaB := by
  refine ⟨?_, by decide, by decide⟩
  norm_num [search, search_with, per_shard, argsortQ, sortA, insertA, sortD,
    cosine_similarity, dotQ, ratSqrt, passes, load_shard, tie_store, metaA,
    metaB, List.range_succ, List.filter_cons, List.filter_nil]

/-- Claim C5 (amended): at call time `now`, `purge_expired` removes from
every shard in range exactly the entries whose metadata carries an
`expires_at` with `now ≥ expires_at`, preserving the order of kept
entries; afterwards no remaining entry is expired at `now`; the count in
the printed `"Purged {n} expired items."` message equals the number of
entries removed across all shards; but the method returns `None`, not the
count. -/
theorem C5_purge_spec (st : State) (now : ℚ) (hpar : shards_parallel st) :
    (∀ shard_id, shard_id < st.shard_index.last_shard + 1 →
        load_shard (purge_expired st now).state.shards shard_id
          = purge_shard_spec now (load_shard st.shards shard_id))
    ∧ (∀ shard_id, shard_id < st.shard_index.last_shard + 1 →
        ∀ m ∈ (load_shard (purge_expired st now).state.shards
            shard_id).metadata, is_expired now m = false)
    ∧ (purge_expired st now).printed = total_expired st now
    ∧ (purge_expired st now).printed
        + total_entries (purge_expired st now).state = total_entries st
    ∧ (purge_expired st now).returned = none := by
  obtain ⟨i1, i2, i3, i4, i5⟩ := purge_go_spec now
    (List.range (st.shard_index.last_shard + 1)) st.shards
    st.shard_index.counts 0 (List.nodup_range _) (fun s _ => hpar s)
  have hload : ∀ shard_id, shard_id < st.shard_index.last_shard + 1 →
      load_shard (purge_expired st now).state.shards shard_id
        = purge_shard_spec now (load_shard st.shards shard_id) := by
    intro sid h
    exact i1 sid (List.mem_range.mpr h)
  have hprint : (purge_expired st now).printed = total_expired st now := by
    show (purge_go now (List.range (st.shard_index.last_shard + 1)) st.shards
        st.shard_index.counts 0).2.2 = total_expired st now
    rw [i5]
    simp only [total_expired]
    omega
  refine ⟨hload, ?_, hprint, ?_, rfl⟩
  · intro sid h m hm
    rw [hload sid h] at hm
    have hm' : m ∈ (((load_shard st.shards sid).vectors.zip
        (load_shard st.shards sid).metadata).filter
        fun p => !(is_expired now p.2)).map Prod.snd := hm
    rw [List.mem_map] at hm'
    obtain ⟨q, hq, rfl⟩ := hm'
    have hf := (List.mem_filter.mp hq).2
    simpa using hf
  · rw [hprint]
    have hlast : (purge_expired st now).state.shard_index.last_shard
        = st.shard_index.last_shard := rfl
    simp only [total_expired, total_entries, hlast]
    apply sum_map_add_of_pointwise
    intro sid hs
    have hsp := hpar sid
    have hz := List.length_zip (load_shard st.shards sid).vectors
      (load_shard st.shards sid).metadata
    have hc := countP_expired_add_kept now
      ((load_shard st.shards sid).vectors.zip (load_shard st.shards sid).metadata)
    rw [hload sid (List.mem_range.mp hs)]
    have hlen : (purge_shard_spec now (load_shard st.shards sid)).vectors.length
        = ((((load_shard st.shards sid).vectors.zip
            (load_shard st.shards sid).metadata).filter
            fun p => !(is_expired now p.2)).map Prod.fst).length := rfl
    rw [hlen, List.length_map]
    omega

/-- Claim C5 witness: the purge description instantiated at a concrete
store with one expired and one live entry. -/
theorem C5_purge_spec_witness :
    load_shard (purge_expired purge_store 10).state.shards 0
      = purge_shard_spec 10 (load_shard purge_store.shards 0)
    ∧ (purge_expired purge_store 10).printed = total_expired purge_store 10
    ∧ (purge_expired purge_store 10).printed
        + total_entries (purge_expired purge_store 10).state
        = total_entries purge_store
    ∧ (purge_expired purge_store 10).returned = none := by
  obtain ⟨h1, _, h3, h4, h5⟩ := C5_purge_spec purge_store 10 (fun sid => by
    match sid with
    | 0 => decide
    | n + 1 => rfl)
  exact ⟨h1 0 (by decide), h3, h4, h5⟩

/-- Claim C5 counterexample: one entry is removed (the printed count is 1),
yet the method's Python return value is `None` — it does not return the
number of entries removed. -/
theorem C5_counterexample :
    (purge_expired purge_store 10).printed = 1
    ∧ (purge_expired purge_store 10).returned = none :=
  ⟨by decide, rfl⟩

end Claims

end LiteVecDB
